import Mathlib

/-!
Verification of the `lukebhan/mongo` excerpt: the `UInt128`/`Int128`
string-parsing helpers (`src/mongo/platform/int128.h`) and the Simple8b
codec (`src/mongo/bson/util/simple8b.h`).

The int128 helpers are header-only and fully present in the source, so they
are embedded directly.  The Simple8b builder/iterator are declared in
`simple8b.h` but their implementation file (`simple8b.cpp`) is not part of
the source tree; the in-class member initializers of `Simple8bBuilder` are
in the header and are embedded directly, while the behaviour of
`append`/`skip`/`flush` and of the iterator is modelled from the
specification (see the doc comments marked `Modelled from the spec:`).
-/

namespace Mongo

/-! ## UInt128 / Int128 string parsing (from `src/mongo/platform/int128.h`)

`MakeUint128FromString` walks the string once, multiplying the accumulator
by ten and adding each digit, all in `uint128_t` arithmetic (that is,
modulo `2 ^ 128`), rejecting empty strings and non-digit characters, and
returning `boost::none` when the previous accumulator value exceeds the
new one (the code's overflow check).  Strings are modelled as `List Char`;
`c.toNat - 48` is `cur - '0'`.
-/

/-- One step of the parsing loop of `MakeUint128FromString`:
`startingVal *= 10; startingVal += cur - '0'`, but without the
`uint128_t` wrap-around (used to state the intended numeric value). -/
def digitStep (a : Nat) (c : Char) : Nat := a * 10 + (c.toNat - 48)

/-- The exact numeric value of a digit string continuing from accumulator
`a` (no modular wrap-around). -/
def valFrom (a : Nat) (l : List Char) : Nat := l.foldl digitStep a

/-- The exact numeric value denoted by a digit string. -/
def digitsVal (l : List Char) : Nat := valFrom 0 l

/-- The loop body of `UInt128::MakeUint128FromString` (int128.h lines
48-58): per character, reject non-digits, update
`startingVal = startingVal * 10 + (cur - '0')` in `uint128_t` arithmetic
(modulo `2 ^ 128`), return `boost::none` if `prevVal > startingVal`,
otherwise set `prevVal = startingVal` and continue; at the end of the
string return `startingVal`. -/
def parseLoop : List Char → Nat → Nat → Option Nat
  | [], startingVal, _ => some startingVal
  | c :: rest, startingVal, prevVal =>
    if c.isDigit then
      let s := (startingVal * 10 + (c.toNat - 48)) % 2 ^ 128
      if prevVal > s then none
      else parseLoop rest s s
    else none

/-- `UInt128::MakeUint128FromString` (int128.h lines 43-60): empty strings
yield `boost::none`, otherwise run the parsing loop with both accumulators
starting at zero. -/
def MakeUint128FromString (l : List Char) : Option Nat :=
  if l = [] then none
  else parseLoop l 0 0

/-- `absl::Int128Max()`: `2 ^ 127 - 1`. -/
def Int128Max : Nat := 2 ^ 127 - 1

/-- `Int128::MakeInt128FromString` (int128.h lines 67-85): empty strings
yield `boost::none`; a leading `'-'` sets the sign and the remainder of
the string is parsed as a `uint128`; otherwise the whole string is parsed
as a `uint128`; a failed parse or a magnitude above `absl::Int128Max()`
yields `boost::none`; otherwise the (possibly negated) value is
returned. -/
def MakeInt128FromString (l : List Char) : Option Int :=
  match l with
  | [] => none
  | c :: rest =>
    let val : Option Nat :=
      if c = '-' then MakeUint128FromString rest
      else MakeUint128FromString (c :: rest)
    match val with
    | none => none
    | some v =>
      if v > Int128Max then none
      else some (if c = '-' then -(v : Int) else (v : Int))

end Mongo

namespace Mongo

/-! ## Simple8b (from `src/mongo/bson/util/simple8b.h` and the spec)

`simple8b.h` declares `Simple8bBuilder` and `Simple8b::Iterator` and gives
the in-class member default values of the builder state; the
implementation file with the method bodies and the bit-layout tables is
not part of the source tree, so the behaviour below is modelled from the
specification. -/

/-- Per-family arrays of four values, one per selector family — base
(index 0), extended-7 (index 1), extended-8 (index 2) and the reserved
bookkeeping family (index 3) — mirroring the
`std::array<uint8_t, kNumOfSelectorTypes>` members of `Simple8bBuilder`. -/
structure Quad (α : Type) where
  b : α
  e7 : α
  e8 : α
  rsv : α
  deriving DecidableEq

/-- Index a `Quad` by family number (0, 1, 2; anything else is the
reserved family). -/
def Quad.get {α : Type} (q : Quad α) (f : Nat) : α :=
  match f with
  | 0 => q.b
  | 1 => q.e7
  | 2 => q.e8
  | _ => q.rsv

/-- Componentwise maximum of two per-family arrays. -/
def quadMax (x y : Quad Nat) : Quad Nat :=
  ⟨max x.b y.b, max x.e7 y.e7, max x.e8 y.e8, max x.rsv y.rsv⟩

/-- Componentwise minimum of two per-family arrays. -/
def quadMin (x y : Quad Nat) : Quad Nat :=
  ⟨min x.b y.b, min x.e7 y.e7, min x.e8 y.e8, min x.rsv y.rsv⟩

/-- `Simple8bBuilder::kNumOfSelectorTypes` (simple8b.h line 48). -/
def kNumOfSelectorTypes : Nat := 4

/-- `Simple8bBuilder::kMinDataBits = {1, 2, 4, 4}` (simple8b.h line 51):
the minimum number of meaningful bits each selector family can store. -/
def kMinDataBits : Quad Nat := ⟨1, 2, 4, 4⟩

/-- `Simple8bBuilder::PendingValue` (simple8b.h lines 86-97): a queued
value together with its per-family bit counts, per-family stored
trailing-zero counts, and the skip (missing value) flag. -/
structure PendingValue where
  val : Nat
  bitCount : Quad Nat
  trailingZerosCount : Quad Nat
  skip : Bool
  deriving DecidableEq

/-- The mutable state of `Simple8bBuilder` (simple8b.h lines 172-198),
with each field's in-class default value used for the freshly constructed
builder. -/
structure BuilderState where
  rleCount : Nat
  lastValueInPrevWord : PendingValue
  currMaxBitLen : Quad Nat
  currTrailingZerosCount : Quad Nat
  lastValidExtensionType : Nat
  isSelectorPossible : Quad Bool
  pendingValues : List PendingValue
  deriving DecidableEq

/-- The freshly constructed `Simple8bBuilder`: the in-class member
default values of simple8b.h lines 173-195 — `_rleCount = 0`,
`_lastValueInPrevWord = {0, {0, 0, 0, 0}, {0, 0, 0, 0}, false}`,
`_currMaxBitLen = kMinDataBits`, `_currTrailingZerosCount = {0, 0, 0, 0}`,
`_lastValidExtensionType = 0`, `isSelectorPossible = {true, true, true,
true}`, `_pendingValues` empty. -/
def initState : BuilderState :=
  ⟨0, ⟨0, ⟨0, 0, 0, 0⟩, ⟨0, 0, 0, 0⟩, false⟩, kMinDataBits, ⟨0, 0, 0, 0⟩,
    0, ⟨true, true, true, true⟩, []⟩

/-- Binary length of `v` (number of binary digits), fuel-bounded so that
it reduces by kernel computation; exact for `v < 2 ^ 128`, which covers
both element widths of the codec. -/
def sizeFuel : Nat → Nat → Nat
  | 0, _ => 0
  | fuel + 1, v => if v = 0 then 0 else sizeFuel fuel (v / 2) + 1

/-- Binary length of a value (0 for 0). -/
def bitLength (v : Nat) : Nat := sizeFuel 128 v

/-- Number of trailing zero binary digits, fuel-bounded; exact for
`0 < v < 2 ^ 128` and 0 for `v = 0`. -/
def tzFuel : Nat → Nat → Nat
  | 0, _ => 0
  | fuel + 1, v =>
    if v = 0 then 0 else if v % 2 = 1 then 0 else tzFuel fuel (v / 2) + 1

/-- Trailing-zero count of a value (0 for 0). -/
def trailingZeroCount (v : Nat) : Nat := tzFuel 128 v

/-- Modelled from the spec: the number of meaningful bits used to store a
value in a slot (spec 3.1, 3.3, 8 invariant 4; the method bodies
computing `PendingValue::bitCount` are in the missing simple8b.cpp).  A
value that is all ones in its natural binary length is widened by one bit
so that no legitimate value's slot representation collides with the
all-ones missing sentinel; in particular `storedBits 0 = 1`. -/
def storedBits (v : Nat) : Nat :=
  if v + 1 = 2 ^ bitLength v then bitLength v + 1 else bitLength v

/-- Modelled from the spec: selector overhead per family — 4 bits for the
base selector, 8 bits (selector plus sub-selector) for the extended
families (spec 4.4). -/
def selectorOverheadBits (f : Nat) : Nat := if f = 1 ∨ f = 2 then 8 else 4

/-- Modelled from the spec: bits of the per-slot trailing-zero count
field — 0 for the base family, 4 for the extended families (spec 3.2,
4.8; the exact table is in the missing simple8b.cpp). -/
def countBitsFor (f : Nat) : Nat := if f = 1 ∨ f = 2 then 4 else 0

/-- Modelled from the spec: multiplier turning the stored count field
into a number of zeros — 1 for extended-7, 4 for extended-8 (spec 3.2,
4.8; the exact table is in the missing simple8b.cpp). -/
def countMultiplierFor (f : Nat) : Nat :=
  if f = 1 then 1 else if f = 2 then 4 else 0

/-- Modelled from the spec: the trailing-zero count that would be stored
for value `v` under family `f` — the largest multiple of the family's
multiplier that both divides out only trailing zeros and fits the
family's count field (spec 3.3, 4.2 step 2). -/
def tzStored (f : Nat) (v : Nat) : Nat :=
  let m := countMultiplierFor f
  if m = 0 then 0
  else m * min (trailingZeroCount v / m) (2 ^ countBitsFor f - 1)

/-- Modelled from the spec: the per-family bit count of
`PendingValue::bitCount` — meaningful bits of the residual plus the
stored trailing zeros, so that the shared-zero discount of the fit test
(spec 4.4) recovers the residual width. -/
def bitCountFor (f : Nat) (v : Nat) : Nat :=
  storedBits (v / 2 ^ tzStored f v) + tzStored f v

/-- Modelled from the spec: the `PendingValue` built for an appended
value (spec 3.3, 4.2 step 2). -/
def makePendingValue (v : Nat) : PendingValue :=
  ⟨v, ⟨bitCountFor 0 v, bitCountFor 1 v, bitCountFor 2 v, bitCountFor 3 v⟩,
    ⟨tzStored 0 v, tzStored 1 v, tzStored 2 v, tzStored 3 v⟩, false⟩

/-- Modelled from the spec: the `PendingValue` queued by `skip()` — no
meaningful bits and no trailing zeros contributed to the cost envelopes
(spec 4.3). -/
def skipPendingValue : PendingValue := ⟨0, ⟨0, 0, 0, 0⟩, ⟨0, 0, 0, 0⟩, true⟩

/-- Modelled from the spec: the shared trailing-zero count of the current
word under family `f` if `pv` were inserted — a skip contributes nothing,
the first value seeds the envelope, later values take the minimum (spec
3.4, 4.3, 4.4). -/
def sharedTzFit (s : BuilderState) (pv : PendingValue) (f : Nat) : Nat :=
  if pv.skip then s.currTrailingZerosCount.get f
  else if s.pendingValues = [] then pv.trailingZerosCount.get f
  else min (s.currTrailingZerosCount.get f) (pv.trailingZerosCount.get f)

/-- Modelled from the spec: prospective slot width under family `f` if
`pv` were inserted — `max(curr_max_bit_len, bit_count) - min(shared
trailing zeros)` plus the count-field overhead (spec 4.4). -/
def slotBitsFit (s : BuilderState) (pv : PendingValue) (f : Nat) : Nat :=
  max (s.currMaxBitLen.get f) (pv.bitCount.get f) - sharedTzFit s pv f +
    countBitsFor f

/-- Modelled from the spec: the fit test of
`_doesIntegerFitInCurrentWordWithGivenSelectorType` — the prospective
slot count times the prospective slot width must fit the word minus the
selector overhead (spec 4.4). -/
def fitsFamily (s : BuilderState) (pv : PendingValue) (f : Nat) : Bool :=
  decide ((s.pendingValues.length + 1) * slotBitsFit s pv f ≤
    64 - selectorOverheadBits f)

/-- Modelled from the spec: whether a lone value fits an empty word under
family `f` (the widest word any family can offer to a single value). -/
def fitsEmptyFamily (pv : PendingValue) (f : Nat) : Bool :=
  decide (max (kMinDataBits.get f) (pv.bitCount.get f) -
      pv.trailingZerosCount.get f + countBitsFor f ≤
    64 - selectorOverheadBits f)

/-- Modelled from the spec: a value is too wide to store when no family
can hold it even alone in an otherwise empty word — more meaningful bits
than the widest family supports after accounting for extended trailing
zeros (spec 4.2 contract, 7). -/
def tooWideValue (pv : PendingValue) : Bool :=
  !(fitsEmptyFamily pv 0 || fitsEmptyFamily pv 1 || fitsEmptyFamily pv 2)

/-- Result of the admissibility scan of `_doesIntegerFitInCurrentWord`:
whether some family admits the pending set plus the new value, the
winning family, and the updated sticky per-family possibility flags. -/
structure FitResult where
  ok : Bool
  ext : Nat
  flags : Quad Bool
  deriving DecidableEq

/-- Modelled from the spec: `_doesIntegerFitInCurrentWord` — scan the
families still marked possible in index order (base, extended-7,
extended-8; the reserved family is bookkeeping only), mark the ones that
fail as impossible for the rest of this word, and stop at the first
family that admits the value (spec 4.2 step 3, 4.4 tie-breaking). -/
def doesIntegerFitInCurrentWord (s : BuilderState) (pv : PendingValue) :
    FitResult :=
  let p := s.isSelectorPossible
  if p.b && fitsFamily s pv 0 then ⟨true, 0, p⟩
  else if p.e7 && fitsFamily s pv 1 then ⟨true, 1, ⟨false, p.e7, p.e8, p.rsv⟩⟩
  else if p.e8 && fitsFamily s pv 2 then
    ⟨true, 2, ⟨false, false, p.e8, p.rsv⟩⟩
  else ⟨false, s.lastValidExtensionType, ⟨false, false, false, p.rsv⟩⟩

/-- Modelled from the spec: `_updateSimple8bCurrentState` plus the queue
push — extend the envelopes with the new value's costs, record the
winning family and the pruned possibility flags, and append the value to
the pending queue (spec 3.4, 4.2 step 3). -/
def pushPending (s : BuilderState) (pv : PendingValue) (res : FitResult) :
    BuilderState :=
  { s with
    currMaxBitLen := quadMax s.currMaxBitLen pv.bitCount
    currTrailingZerosCount :=
      if pv.skip then s.currTrailingZerosCount
      else if s.pendingValues = [] then pv.trailingZerosCount
      else quadMin s.currTrailingZerosCount pv.trailingZerosCount
    lastValidExtensionType := res.ext
    isSelectorPossible := res.flags
    pendingValues := s.pendingValues ++ [pv] }

/-- Modelled from the spec: the base-family layout table as rows
`(selector, data bits, slot count)`, slot count descending (spec 3.2
lists the layout pairs; the concrete selector numbering lives in the
missing simple8b.cpp, so rows are assigned to the selector values not
taken by the reserved selector 0, the RLE selectors 1 and 2, and the
extended selectors 7 and 8). -/
def kBaseTable : List (Nat × Nat × Nat) :=
  [(3, 1, 60), (4, 3, 20), (5, 4, 15), (6, 5, 12), (9, 6, 10),
   (10, 10, 6), (11, 12, 5), (12, 15, 4), (13, 20, 3), (14, 30, 2),
   (15, 60, 1)]

/-- Modelled from the spec: the extended-7 layout table as rows
`(sub-selector, data bits, slot count)`; each slot additionally carries a
4-bit trailing-zero count, and `(data bits + 4) * slot count ≤ 56`
(spec 3.2, 4.1; the concrete table lives in the missing simple8b.cpp). -/
def kExt7Table : List (Nat × Nat × Nat) :=
  [(0, 2, 9), (1, 3, 8), (2, 4, 7), (3, 5, 6), (4, 6, 5), (5, 7, 5),
   (6, 8, 4), (7, 10, 4), (8, 14, 3), (9, 24, 2), (10, 52, 1)]

/-- Modelled from the spec: the extended-8 layout table, like extended-7
but starting at 4 data bits (`kMinDataBits` of the family). -/
def kExt8Table : List (Nat × Nat × Nat) :=
  [(0, 4, 7), (1, 5, 6), (2, 6, 5), (3, 7, 5), (4, 8, 4), (5, 10, 4),
   (6, 14, 3), (7, 24, 2), (8, 52, 1)]

/-- Layout table of a family. -/
def tableFor (f : Nat) : List (Nat × Nat × Nat) :=
  if f = 1 then kExt7Table else if f = 2 then kExt8Table else kBaseTable

/-- Modelled from the spec: largest slot count at most `len` whose data
width covers `needed` bits (spec 4.6 step 1); the tables are ordered with
slot count descending and width ascending, so the first matching row is
the largest such slot count.  The fallback row (unreachable for states
maintained by the builder) is the widest one-slot layout. -/
def findLayout (f : Nat) (needed len : Nat) : Nat × Nat × Nat :=
  match (tableFor f).find? (fun e => decide (e.2.2 ≤ len) &&
      decide (needed ≤ e.2.1)) with
  | some e => e
  | none => if f = 1 then (10, 52, 1) else if f = 2 then (8, 52, 1)
            else (15, 60, 1)

/-- Modelled from the spec: the bit pattern of one slot — a skip is all
ones; otherwise the value, shifted right by the shared trailing zeros,
sits above the count field holding the shared zeros divided by the
family multiplier (spec 4.6 steps 3-4). -/
def slotValue (f dataBits sharedTz : Nat) (pv : PendingValue) : Nat :=
  if pv.skip then 2 ^ (dataBits + countBitsFor f) - 1
  else
    pv.val / 2 ^ sharedTz * 2 ^ countBitsFor f +
      (if countMultiplierFor f = 0 then 0 else sharedTz / countMultiplierFor f)

/-- Modelled from the spec: pack slots in little-endian slot order, slot
0 in the lowest bits (spec 4.6 step 2). -/
def packSlots (f dataBits sharedTz : Nat) : List PendingValue → Nat
  | [] => 0
  | pv :: rest =>
    slotValue f dataBits sharedTz pv +
      2 ^ (dataBits + countBitsFor f) * packSlots f dataBits sharedTz rest

/-- Modelled from the spec: a full code word — selector in the low
nibble, for extended families the sub-selector in the next nibble, then
the packed slots (spec 6 word layout). -/
def packWord (f sel sub dataBits sharedTz : Nat)
    (vals : List PendingValue) : Nat :=
  if f = 1 ∨ f = 2 then sel + 16 * sub + 256 * packSlots f dataBits sharedTz vals
  else sel + 16 * packSlots f dataBits sharedTz vals

/-- Running per-family maximum bit count of a pending queue, seeded with
`kMinDataBits` (spec 3.4). -/
def foldMaxBits (l : List PendingValue) : Quad Nat :=
  l.foldl (fun q pv => quadMax q pv.bitCount) kMinDataBits

/-- Per-family minimum stored trailing zeros across the non-skip values
of a pending queue (zero when there are none) (spec 3.4, 4.3). -/
def foldTz (l : List PendingValue) : Quad Nat :=
  match l.filter (fun pv => !pv.skip) with
  | [] => ⟨0, 0, 0, 0⟩
  | x :: xs =>
    xs.foldl (fun q pv => quadMin q pv.trailingZerosCount) x.trailingZerosCount

/-- Modelled from the spec: `_encodeLargestPossibleWord` — pick the
largest layout of family `f` that the pending queue fills, pack that many
values into one word, drop them from the queue, record the last committed
value, recompute the envelopes from the carry-over tail and reset the
possibility flags (spec 4.6). -/
def emitWord (s : BuilderState) (f : Nat) : BuilderState × Nat :=
  let needed := s.currMaxBitLen.get f - s.currTrailingZerosCount.get f
  let lay := findLayout f needed s.pendingValues.length
  let sel := if f = 1 then 7 else if f = 2 then 8 else lay.1
  let sub := if f = 1 ∨ f = 2 then lay.1 else 0
  let taken := s.pendingValues.take lay.2.2
  let rest := s.pendingValues.drop lay.2.2
  let w := packWord f sel sub lay.2.1 (s.currTrailingZerosCount.get f) taken
  ({ s with
      pendingValues := rest
      lastValueInPrevWord := (taken.getLast?).getD s.lastValueInPrevWord
      currMaxBitLen := foldMaxBits rest
      currTrailingZerosCount := foldTz rest
      isSelectorPossible := ⟨true, true, true, true⟩ }, w)

/-- Modelled from the spec: `_appendValue` without the RLE hand-off —
with the try-RLE flag set, a value equal to the last committed value
arriving at an empty queue (a word boundary) starts a run instead of
being queued (spec 4.2 step 5); otherwise try the admissibility scan; on
success push the value; otherwise emit the largest possible word under
the previously valid family and retry (spec 4.2 steps 3-4).  The fuel is
an upper bound on the number of emissions (each emission shortens the
queue); the fuel-exhausted and empty-queue-misfit branches return the
state unchanged and are not reached for storable values. -/
def appendPendingFuel : Bool → Nat → BuilderState → PendingValue →
    Bool × BuilderState × List Nat
  | _, 0, s, _ => (false, s, [])
  | tryRle, fuel + 1, s, pv =>
    if tryRle && s.pendingValues.isEmpty && !pv.skip &&
        !s.lastValueInPrevWord.skip && pv.val == s.lastValueInPrevWord.val then
      (true, { s with rleCount := s.rleCount + 1 }, [])
    else
      let res := doesIntegerFitInCurrentWord s pv
      if res.ok then (true, pushPending s pv res, [])
      else if s.pendingValues = [] then (false, s, [])
      else
        let r1 := emitWord s s.lastValidExtensionType
        let r2 := appendPendingFuel tryRle fuel r1.1 pv
        (r2.1, r2.2.1, r1.2 :: r2.2.2)

/-- Modelled from the spec: the RLE words covering a run — words of
selector 2 (240 repeats) while possible, then one word of selector 1 (120
repeats) if possible; the remaining count (below 120) is returned (spec
3.2, 4.5; an RLE word is its selector alone, the other 60 bits zero,
spec 6). -/
def rleWordsFuel : Nat → Nat → List Nat × Nat
  | 0, n => ([], n)
  | fuel + 1, n =>
    if 240 ≤ n then
      let r := rleWordsFuel fuel (n - 240)
      (2 :: r.1, r.2)
    else if 120 ≤ n then ([1], n - 120)
    else ([], n)

/-- Modelled from the spec: re-append `r` copies of the run value into
the pending queue after a run ends (spec 4.5). -/
def appendSameFuel : Nat → BuilderState → Nat → BuilderState × List Nat
  | 0, s, _ => (s, [])
  | r + 1, s, v =>
    let r1 := appendPendingFuel false (s.pendingValues.length + 1) s
      (makePendingValue v)
    let r2 := appendSameFuel r r1.2.1 v
    (r2.1, r1.2.2 ++ r2.2)

/-- Modelled from the spec: `_handleRleTermination` — if a run is open,
emit full RLE words, reset the run counter, and push the residual repeats
back through the pending queue (spec 4.5). -/
def handleRleTermination (s : BuilderState) : BuilderState × List Nat :=
  if s.rleCount = 0 then (s, [])
  else
    let r := rleWordsFuel s.rleCount s.rleCount
    let r2 := appendSameFuel r.2 { s with rleCount := 0 }
      s.lastValueInPrevWord.val
    (r2.1, r.1 ++ r2.2)

/-- Modelled from the spec: `_rlePossible` — a run can continue or start
when one is already open or the pending queue is empty (simple8b.h lines
58-61: the default RLE value at the beginning is 0; spec 9 open
question). -/
def rlePossible (s : BuilderState) : Bool :=
  s.pendingValues.isEmpty || !(s.rleCount == 0)

/-- Modelled from the spec: `Simple8bBuilder::append` — reject a too-wide
value up front leaving the state untouched (spec 7: encoder state is
untouched on failure); continue or start a run when the value repeats the
last committed value (spec 4.2 step 1); otherwise finish any open run and
push the value through the pending queue (spec 4.2 steps 2-4). -/
def appendOp (s : BuilderState) (v : Nat) : Bool × BuilderState × List Nat :=
  let pv := makePendingValue v
  if tooWideValue pv then (false, s, [])
  else if rlePossible s && !s.lastValueInPrevWord.skip &&
      v == s.lastValueInPrevWord.val then
    (true, { s with rleCount := s.rleCount + 1 }, [])
  else
    let r1 := handleRleTermination s
    let r2 := appendPendingFuel true (r1.1.pendingValues.length + 1) r1.1 pv
    (r2.1, r2.2.1, r1.2 ++ r2.2.2)

/-- Modelled from the spec: `Simple8bBuilder::skip` — a skip ends any
open run, then occupies one slot of the current word (spec 4.3). -/
def skipOp (s : BuilderState) : BuilderState × List Nat :=
  let r1 := handleRleTermination s
  let r2 := appendPendingFuel false (r1.1.pendingValues.length + 1) r1.1
    skipPendingValue
  (r2.2.1, r1.2 ++ r2.2.2)

/-- Modelled from the spec: drain the pending queue into words at flush
time (spec 4.7). -/
def drainFuel : Nat → BuilderState → BuilderState × List Nat
  | 0, s => (s, [])
  | fuel + 1, s =>
    if s.pendingValues = [] then (s, [])
    else
      let r1 := emitWord s s.lastValidExtensionType
      let r2 := drainFuel fuel r1.1
      (r2.1, r1.2 :: r2.2)

/-- Modelled from the spec: `Simple8bBuilder::flush` — finish any open
run, then pack-and-emit until the pending queue is empty (spec 4.7). -/
def flushOp (s : BuilderState) : BuilderState × List Nat :=
  let r1 := handleRleTermination s
  let r2 := drainFuel (r1.1.pendingValues.length + 1) r1.1
  (r2.1, r1.2 ++ r2.2)

/-- One call of the builder's public interface. -/
inductive Op where
  | append (v : Nat)
  | skip
  | flush
  deriving DecidableEq

/-- Run one call against the builder state, returning the new state and
the words handed to the write callback, in order. -/
def runOp (s : BuilderState) : Op → BuilderState × List Nat
  | Op.append v =>
    let r := appendOp s v
    (r.2.1, r.2.2)
  | Op.skip => skipOp s
  | Op.flush => flushOp s

/-- Run a sequence of calls from a given state, collecting all emitted
words in order. -/
def runOpsFrom (s : BuilderState) : List Op → BuilderState × List Nat
  | [] => (s, [])
  | op :: rest =>
    let r1 := runOp s op
    let r2 := runOpsFrom r1.1 rest
    (r2.1, r1.2 ++ r2.2)

/-- Run a sequence of calls against a freshly constructed builder. -/
def runOps (ops : List Op) : BuilderState × List Nat := runOpsFrom initState ops

/-- A builder state reachable from the freshly constructed builder by
some sequence of `append`, `skip` and `flush` calls. -/
def ReachableState (s : BuilderState) : Prop :=
  ∃ ops : List Op, (runOps ops).1 = s

/-! ### Decoder (spec-modelled, spec 4.8) -/

/-- Base-table row of a selector value, as `(data bits, slot count)`. -/
def lookupBySelector (sel : Nat) : Option (Nat × Nat) :=
  match kBaseTable.find? (fun e => e.1 == sel) with
  | some e => some (e.2.1, e.2.2)
  | none => none

/-- Extended-table row of a sub-selector value. -/
def lookupSub (f sub : Nat) : Option (Nat × Nat) :=
  match (tableFor f).find? (fun e => e.1 == sub) with
  | some e => some (e.2.1, e.2.2)
  | none => none

/-- Modelled from the spec: decode the slots of one word (already shifted
past the selector overhead), low slot first — an all-ones slot is the
missing marker; an extended slot splits into the count field and the
payload, and the value is the payload shifted left by the count times the
family multiplier (spec 4.8 value load). -/
def decodeSlots (f dataBits : Nat) (w : Nat) : Nat → List (Option Nat)
  | 0 => []
  | c + 1 =>
    let width := dataBits + countBitsFor f
    let raw := w % 2 ^ width
    let v : Option Nat :=
      if raw = 2 ^ width - 1 then none
      else if f = 1 ∨ f = 2 then
        some (raw / 2 ^ countBitsFor f *
          2 ^ (raw % 2 ^ countBitsFor f * countMultiplierFor f))
      else some raw
    v :: decodeSlots f dataBits (w / 2 ^ width) c

/-- Modelled from the spec: decode one word given the last value yielded
by the preceding block — selector 0 is malformed (end of stream),
selectors 1 and 2 are RLE blocks of 120 and 240 repeats of the previous
value, selectors 7 and 8 carry a sub-selector and extended slots, the
remaining selectors carry base slots (spec 4.8 block load, 7). -/
def decodeWord (last : Option Nat) (w : Nat) : Option (List (Option Nat)) :=
  let sel := w % 16
  if sel = 0 then none
  else if sel = 1 then some (List.replicate 120 last)
  else if sel = 2 then some (List.replicate 240 last)
  else if sel = 7 ∨ sel = 8 then
    let f := if sel = 7 then 1 else 2
    match lookupSub f (w / 16 % 16) with
    | none => none
    | some dc => some (decodeSlots f dc.1 (w / 256) dc.2)
  else
    match lookupBySelector sel with
    | none => none
    | some dc => some (decodeSlots 0 dc.1 (w / 16) dc.2)

/-- Modelled from the spec: decode a word stream, threading the last
yielded value into RLE blocks; a malformed word ends the stream (spec
4.8, 7). -/
def decodeWordsFrom : List Nat → Option Nat → List (Option Nat)
  | [], _ => []
  | w :: ws, last =>
    match decodeWord last w with
    | none => []
    | some vs => vs ++ decodeWordsFrom ws ((vs.getLast?).getD last)

/-- Modelled from the spec: decode a full word stream; the implicit value
preceding the first block is zero (spec 4.8 block load, 6 RLE
continuation). -/
def decode (ws : List Nat) : List (Option Nat) := decodeWordsFrom ws (some 0)

/-- The call sequence encoding a list of present/missing values: `append`
per present value, `skip` per missing one (the op list `encode` feeds the
builder, before the final `flush`). -/
def toOps (xs : List (Option Nat)) : List Op :=
  xs.map (fun x => match x with
    | some v => Op.append v
    | none => Op.skip)

/-- Encode a sequence of present/missing values: feed it to a fresh
builder via `append`/`skip` and finish with `flush`, collecting the words
handed to the write callback. -/
def encode (xs : List (Option Nat)) : List Nat :=
  (runOps (toOps xs ++ [Op.flush])).2

/-- The `Simple8b::Iterator` state (simple8b.h lines 261-296): the word
cursor and end, the loaded word, the exposed value, the slot mask, the
remaining RLE count, the slot shift, the slot width, and the extended
count mask, count bit width, count multiplier, selector and extension
type. -/
structure Iterator where
  pos : Nat
  endPos : Nat
  current : Nat
  value : Option Nat
  mask : Nat
  rleRemaining : Nat
  shift : Nat
  bitsPerValue : Nat
  countMask : Nat
  countBits : Nat
  countMultiplier : Nat
  selector : Nat
  extensionType : Nat
  deriving DecidableEq

/-- Modelled from the spec: `Simple8b::Iterator::operator==` — two
iterators are equal exactly when their position cursor and slot shift
agree (spec 4.8 equality; the method body is in the missing
simple8b.cpp). -/
def iterEq (a b : Iterator) : Bool := a.pos == b.pos && a.shift == b.shift

/-- Modelled from the spec: `Simple8b::Iterator::operator!=`, the
negation of `operator==`. -/
def iterNe (a b : Iterator) : Bool := !iterEq a b

/-! ### Proof-layer definitions for the round-trip development -/

/-- The present-or-missing value denoted by a pending value. -/
def pvOpt (pv : PendingValue) : Option Nat :=
  if pv.skip then none else some pv.val

/-- The sequence of logical values a builder state still owes the output:
the open run followed by the pending queue. -/
def stateVals (s : BuilderState) : List (Option Nat) :=
  List.replicate s.rleCount (some s.lastValueInPrevWord.val) ++
    s.pendingValues.map pvOpt

/-- A value the codec can store: some family admits it alone in an empty
word. -/
def Storable (v : Nat) : Prop :=
  tooWideValue (makePendingValue v) = false

/-- Structural well-formedness of a queued pending value: it is either
the skip marker or the cost record of a storable value. -/
def PvWF (pv : PendingValue) : Prop :=
  pv = skipPendingValue ∨
    (pv.skip = false ∧ pv = makePendingValue pv.val ∧ Storable pv.val)

/-- The per-family cost envelopes over-approximate every queued value:
`currMaxBitLen` dominates each bit count, `currTrailingZerosCount` is
below each non-skip stored trailing-zero count, is a multiple of the
family multiplier that fits the count field, and `currMaxBitLen` is at
least the family minimum. -/
def EnvOK (s : BuilderState) : Prop :=
  ∀ f, f < 3 →
    (∀ pv ∈ s.pendingValues, pv.bitCount.get f ≤ s.currMaxBitLen.get f) ∧
    (∀ pv ∈ s.pendingValues, pv.skip = false →
      s.currTrailingZerosCount.get f ≤ pv.trailingZerosCount.get f) ∧
    countMultiplierFor f ∣ s.currTrailingZerosCount.get f ∧
    s.currTrailingZerosCount.get f ≤
      countMultiplierFor f * (2 ^ countBitsFor f - 1) ∧
    kMinDataBits.get f ≤ s.currMaxBitLen.get f

/-- An empty pending queue comes with reset envelopes and possibility
flags (as the fresh builder starts and as each full emission leaves
them). -/
def EmptyReset (s : BuilderState) : Prop :=
  s.pendingValues = [] →
    s.currMaxBitLen = kMinDataBits ∧
    s.currTrailingZerosCount = ⟨0, 0, 0, 0⟩ ∧
    s.isSelectorPossible = ⟨true, true, true, true⟩

/-- A pending queue of skips only leaves the trailing-zero envelopes at
zero. -/
def AllSkipTz (s : BuilderState) : Prop :=
  (∀ pv ∈ s.pendingValues, pv.skip = true) →
    s.currTrailingZerosCount = ⟨0, 0, 0, 0⟩

/-- Whenever the queue is non-empty the family recorded for the next
emission is real and its current slot data width fits that family's
widest layout. -/
def NeedBound (s : BuilderState) : Prop :=
  s.pendingValues ≠ [] →
    s.lastValidExtensionType < 3 ∧
    s.currMaxBitLen.get s.lastValidExtensionType -
        s.currTrailingZerosCount.get s.lastValidExtensionType ≤
      64 - selectorOverheadBits s.lastValidExtensionType -
        countBitsFor s.lastValidExtensionType

/-- The last committed value is a skip or a storable value (it seeds RLE
continuation and residual re-appends). -/
def LastWF (s : BuilderState) : Prop :=
  s.lastValueInPrevWord.skip = true ∨ Storable s.lastValueInPrevWord.val

/-- An open run owns the whole state: the queue is empty and the run
value is a real value, not a skip. -/
def RleWF (s : BuilderState) : Prop :=
  0 < s.rleCount →
    s.pendingValues = [] ∧ s.lastValueInPrevWord.skip = false

/-- The builder-state invariant of the round-trip proof. -/
def GOOD (s : BuilderState) : Prop :=
  EnvOK s ∧ (∀ pv ∈ s.pendingValues, PvWF pv) ∧ EmptyReset s ∧
    AllSkipTz s ∧ NeedBound s ∧ LastWF s ∧ RleWF s

/-- The logical values consumed by a call sequence: one present value per
`append`, one missing value per `skip`, nothing for `flush`. -/
def opInputs (ops : List Op) : List (Option Nat) :=
  ops.filterMap (fun op => match op with
    | Op.append v => some (some v)
    | Op.skip => some none
    | Op.flush => none)

theorem le_valFrom (a : Nat) (l : List Char) : a ≤ valFrom a l := by
  induction l generalizing a with
  | nil => exact Nat.le_refl a
  | cons c t ih =>
    have h1 : a ≤ digitStep a c := by
      unfold digitStep
      omega
    exact h1.trans (ih (digitStep a c))

theorem parseLoop_exact {l : List Char} :
    ∀ {a : Nat}, (∀ c ∈ l, c.isDigit = true) → valFrom a l < 2 ^ 128 →
      parseLoop l a a = some (valFrom a l) := by
  induction l with
  | nil => intro a _ _; rfl
  | cons c t ih =>
    intro a hdig hbound
    have hc : c.isDigit = true := hdig c (List.mem_cons_self c t)
    have hval : valFrom a (c :: t) = valFrom (digitStep a c) t := rfl
    have hle : digitStep a c ≤ valFrom a (c :: t) := by
      rw [hval]; exact le_valFrom _ _
    have hlt : digitStep a c < 2 ^ 128 := lt_of_le_of_lt hle hbound
    have hmod : (a * 10 + (c.toNat - 48)) % 2 ^ 128 = digitStep a c :=
      Nat.mod_eq_of_lt hlt
    have hnogt : ¬ a > digitStep a c := by
      unfold digitStep
      omega
    simp only [parseLoop, hc, if_true, hmod, hnogt, if_false, hval]
    exact ih (fun d hd => hdig d (List.mem_cons_of_mem c hd)) (hval ▸ hbound)

theorem parseLoop_digits {l : List Char} :
    ∀ {s p v : Nat}, parseLoop l s p = some v → ∀ c ∈ l, c.isDigit = true := by
  induction l with
  | nil => intro s p v _ c hc; exact absurd hc (List.not_mem_nil c)
  | cons c t ih =>
    intro s p v h d hd
    by_cases hc : c.isDigit = true
    · simp only [parseLoop, hc, if_true] at h
      rcases List.mem_cons.mp hd with hdc | hdt
      · exact hdc ▸ hc
      · by_cases hgt : p > (s * 10 + (c.toNat - 48)) % 2 ^ 128
        · rw [if_pos hgt] at h
          exact absurd h (by simp)
        · rw [if_neg hgt] at h
          exact ih h d hdt
    · simp only [parseLoop, hc, if_false] at h
      exact absurd h (by simp)

/-- C8: `UInt128::MakeUint128FromString` returns the exact numeric value
for every non-empty all-digit string denoting a value of at most
`2 ^ 128 - 1`, and returns `boost::none` for the empty string and for any
string containing a non-digit character. -/
theorem C8_make_uint128_correct (l : List Char) :
    (l ≠ [] → (∀ c ∈ l, c.isDigit = true) → digitsVal l ≤ 2 ^ 128 - 1 →
      MakeUint128FromString l = some (digitsVal l)) ∧
    (l = [] → MakeUint128FromString l = none) ∧
    ((∃ c ∈ l, ¬ c.isDigit = true) → MakeUint128FromString l = none) := by
  refine ⟨?_, ?_, ?_⟩
  · intro hne hdig hle
    unfold MakeUint128FromString
    rw [if_neg hne]
    exact parseLoop_exact hdig (by unfold digitsVal at hle; omega)
  · intro h
    subst h
    rfl
  · rintro ⟨c, hc, hnd⟩
    cases hm : MakeUint128FromString l with
    | none => rfl
    | some v =>
      unfold MakeUint128FromString at hm
      by_cases hl : l = []
      · rw [if_pos hl] at hm
        exact absurd hm (by simp)
      · rw [if_neg hl] at hm
        exact absurd (parseLoop_digits hm c hc) hnd

/-- Witness for C8 at the concrete input `"1234"`. -/
theorem C8_make_uint128_correct_witness :
    MakeUint128FromString ['1', '2', '3', '4'] = some 1234 := by
  have h := (C8_make_uint128_correct ['1', '2', '3', '4']).1
    (by decide) (by decide) (by decide)
  exact h.trans (by decide)

theorem pushPending_rleCount (s : BuilderState) (pv : PendingValue)
    (res : FitResult) : (pushPending s pv res).rleCount = s.rleCount := rfl

theorem emitWord_rleCount (s : BuilderState) (f : Nat) :
    (emitWord s f).1.rleCount = s.rleCount := rfl

theorem appendPendingFuel_rleCount_no_tryRle :
    ∀ (fuel : Nat) (s : BuilderState) (pv : PendingValue),
      (appendPendingFuel false fuel s pv).2.1.rleCount = s.rleCount := by
  intro fuel
  induction fuel with
  | zero => intro s pv; rfl
  | succ n ih =>
    intro s pv
    unfold appendPendingFuel
    simp only [Bool.false_and, Bool.false_eq_true, if_false]
    split
    · rfl
    · split
      · rfl
      · dsimp only
        rw [ih, emitWord_rleCount]

theorem appendSameFuel_rleCount :
    ∀ (r : Nat) (s : BuilderState) (v : Nat),
      (appendSameFuel r s v).1.rleCount = s.rleCount := by
  intro r
  induction r with
  | zero => intro s v; rfl
  | succ n ih =>
    intro s v
    unfold appendSameFuel
    dsimp only
    rw [ih, appendPendingFuel_rleCount_no_tryRle]

theorem handleRleTermination_rleCount (s : BuilderState) :
    (handleRleTermination s).1.rleCount = 0 := by
  unfold handleRleTermination
  split
  · assumption
  · dsimp only
    rw [appendSameFuel_rleCount]

theorem drainFuel_rleCount :
    ∀ (fuel : Nat) (s : BuilderState),
      (drainFuel fuel s).1.rleCount = s.rleCount := by
  intro fuel
  induction fuel with
  | zero => intro s; rfl
  | succ n ih =>
    intro s
    unfold drainFuel
    split
    · rfl
    · dsimp only
      rw [ih, emitWord_rleCount]

theorem appendPendingFuel_pending_of_rle :
    ∀ (tryRle : Bool) (fuel : Nat) (s : BuilderState) (pv : PendingValue),
      s.rleCount = 0 →
      0 < (appendPendingFuel tryRle fuel s pv).2.1.rleCount →
      (appendPendingFuel tryRle fuel s pv).2.1.pendingValues = [] := by
  intro tryRle fuel
  induction fuel with
  | zero =>
    intro s pv h0 hlt
    rw [show (appendPendingFuel tryRle 0 s pv).2.1 = s from rfl] at hlt ⊢
    omega
  | succ n ih =>
    intro s pv h0
    unfold appendPendingFuel
    dsimp only
    split
    · rename_i hguard
      intro _
      simp only [Bool.and_eq_true] at hguard
      exact List.isEmpty_iff.mp hguard.1.1.1.2
    · split
      · intro hlt
        rw [pushPending_rleCount, h0] at hlt
        omega
      · split
        · intro hlt
          rw [h0] at hlt
          omega
        · exact ih _ pv (by rw [emitWord_rleCount]; exact h0)

theorem runOp_pending_of_rle (s : BuilderState) (op : Op)
    (hP : 0 < s.rleCount → s.pendingValues = []) :
    0 < (runOp s op).1.rleCount → (runOp s op).1.pendingValues = [] := by
  cases op with
  | append v =>
    show 0 < (appendOp s v).2.1.rleCount → (appendOp s v).2.1.pendingValues = []
    unfold appendOp
    dsimp only
    split
    · exact hP
    · split
      · rename_i hguard
        intro _
        simp only [Bool.and_eq_true] at hguard
        rcases hguard with ⟨⟨hrle, _⟩, _⟩
        unfold rlePossible at hrle
        rcases Bool.or_eq_true_iff.mp hrle with hemp | hne
        · exact List.isEmpty_iff.mp hemp
        · simp only [Bool.not_eq_true', beq_eq_false_iff_ne] at hne
          exact hP (Nat.pos_of_ne_zero hne)
      · dsimp only
        exact appendPendingFuel_pending_of_rle true _ _ _
          (handleRleTermination_rleCount s)
  | skip =>
    intro hlt
    exact absurd hlt (by
      show ¬ 0 < (skipOp s).1.rleCount
      unfold skipOp
      dsimp only
      rw [appendPendingFuel_rleCount_no_tryRle, handleRleTermination_rleCount]
      omega)
  | flush =>
    intro hlt
    exact absurd hlt (by
      show ¬ 0 < (flushOp s).1.rleCount
      unfold flushOp
      dsimp only
      rw [drainFuel_rleCount, handleRleTermination_rleCount]
      omega)

theorem runOpsFrom_pending_of_rle :
    ∀ (ops : List Op) (s : BuilderState),
      (0 < s.rleCount → s.pendingValues = []) →
      0 < (runOpsFrom s ops).1.rleCount →
      (runOpsFrom s ops).1.pendingValues = [] := by
  intro ops
  induction ops with
  | nil => intro s hP; exact hP
  | cons op rest ih =>
    intro s hP
    unfold runOpsFrom
    dsimp only
    exact ih (runOp s op).1 (runOp_pending_of_rle s op hP)

/-- C4: in every builder state reachable from the fresh builder by
`append`, `skip` and `flush` calls, an open run (`_rleCount > 0`) implies
the pending queue is empty. -/
theorem C4_rle_implies_pending_empty (ops : List Op)
    (h : 0 < (runOps ops).1.rleCount) : (runOps ops).1.pendingValues = [] :=
  runOpsFrom_pending_of_rle ops initState
    (by intro h0; exact absurd h0 (by decide)) h

/-- Witness for C4: after a single `append 0` the fresh builder has an
open run and an empty pending queue. -/
theorem C4_rle_implies_pending_empty_witness :
    0 < (runOps [Op.append 0]).1.rleCount ∧
    (runOps [Op.append 0]).1.pendingValues = [] :=
  ⟨by decide, C4_rle_implies_pending_empty [Op.append 0] (by decide)⟩

/-- C5: `kMinDataBits` is exactly `{1, 2, 4, 4}` and the freshly
constructed builder's `_currMaxBitLen` equals `kMinDataBits`
(simple8b.h lines 51 and 180). -/
theorem C5_min_data_bits :
    kMinDataBits = ⟨1, 2, 4, 4⟩ ∧ initState.currMaxBitLen = kMinDataBits :=
  ⟨rfl, rfl⟩

/-- C6: the freshly constructed builder's `_lastValueInPrevWord` is the
value 0 with `skip = false` and all per-family counts zero (simple8b.h
line 175), so a run at the very start of the stream repeats the implicit
default value zero: the first `append 0` takes the RLE-continuation path
(emitting nothing), and an RLE word decoded at the start of a stream
yields repeats of zero. -/
theorem C6_initial_last_value :
    initState.lastValueInPrevWord = ⟨0, ⟨0, 0, 0, 0⟩, ⟨0, 0, 0, 0⟩, false⟩ ∧
    initState.lastValueInPrevWord.val = 0 ∧
    initState.lastValueInPrevWord.skip = false ∧
    appendOp initState 0 =
      (true, { initState with rleCount := 1 }, []) ∧
    decodeWordsFrom [1] (some 0) = List.replicate 120 (some 0) := by
  refine ⟨rfl, rfl, rfl, by decide, by decide⟩

/-- C7: two iterators are equal under `operator==` exactly when their
position cursor and slot shift agree — no other iterator field enters the
comparison — and `operator!=` is its negation. -/
theorem C7_iterator_equality (a b : Iterator) :
    (iterEq a b = true ↔ a.pos = b.pos ∧ a.shift = b.shift) ∧
    iterNe a b = !iterEq a b := by
  constructor
  · unfold iterEq
    simp
  · rfl

/-- C3: a value too wide to store — more meaningful bits than the widest
family supports after accounting for extended trailing zeros — makes
`append` return false, emit no word, and leave the whole builder state
exactly as it was. -/
theorem C3_too_wide_append_rejected (s : BuilderState) (v : Nat)
    (h : tooWideValue (makePendingValue v) = true) :
    appendOp s v = (false, s, []) := by
  unfold appendOp
  rw [if_pos h]

/-- Witness for C3: `2 ^ 64 - 2` (63 meaningful bits above one trailing
zero) is too wide, and appending it to the fresh builder fails without
touching the state. -/
theorem C3_too_wide_append_rejected_witness :
    tooWideValue (makePendingValue (2 ^ 64 - 2)) = true ∧
    appendOp initState (2 ^ 64 - 2) = (false, initState, []) :=
  ⟨by decide, C3_too_wide_append_rejected initState (2 ^ 64 - 2) (by decide)⟩

/-- C2: the encoder is deterministic — any two runs over the same call
sequence hand the write callback identical word sequences. -/
theorem C2_encoder_deterministic (ops1 ops2 : List Op) (h : ops1 = ops2) :
    (runOps ops1).2 = (runOps ops2).2 := by rw [h]

/-- Witness for C2 at a concrete call sequence. -/
theorem C2_encoder_deterministic_witness :
    (runOps [Op.append 1, Op.flush]).2 = (runOps [Op.append 1, Op.flush]).2 :=
  C2_encoder_deterministic [Op.append 1, Op.flush] [Op.append 1, Op.flush] rfl

/-- C9: the per-digit overflow check `prevVal > startingVal` of
`UInt128::MakeUint128FromString` does not reject every out-of-range digit
string.  The all-digit string `"3402823669209384634633746074317682114559"`
(the digits of `2 ^ 128 - 1` followed by `'9'`) denotes a value above
`2 ^ 128 - 1`, yet the function returns `some (2 ^ 128 - 1)`: the final
step wraps modulo `2 ^ 128` to exactly the previous accumulator value, so
`prevVal > startingVal` never fires. -/
theorem C9_overflow_check_misses :
    MakeUint128FromString "3402823669209384634633746074317682114559".data =
      some (2 ^ 128 - 1) ∧
    2 ^ 128 - 1 < digitsVal "3402823669209384634633746074317682114559".data ∧
    (∀ c ∈ "3402823669209384634633746074317682114559".data,
      c.isDigit = true) := by
  refine ⟨by decide, by decide, by decide⟩

/-- C10: `Int128::MakeInt128FromString` accepts a digit string whose
magnitude exceeds `Int128Max = 2 ^ 127 - 1`.  The all-digit string
`"378091518801042737181527341590853568289"` denotes
`(10 * 2 ^ 128 + 41) / 9`, which is above `2 ^ 128`, yet the underlying
`uint128` parse wraps to `(2 ^ 128 - 4) / 9 + 5`, which is below
`Int128Max`, so the value is accepted instead of rejected. -/
theorem C10_int128_accepts_out_of_range :
    MakeInt128FromString "378091518801042737181527341590853568289".data =
      some 37809151880104273718152734159085356833 ∧
    Int128Max < digitsVal "378091518801042737181527341590853568289".data ∧
    (∀ c ∈ "378091518801042737181527341590853568289".data,
      c.isDigit = true) := by
  refine ⟨by decide, by decide, by decide⟩

end Mongo

namespace Mongo

/-! ### Bit-level facts used by the round-trip proof -/

theorem sizeFuel_zero (fuel : Nat) : sizeFuel fuel 0 = 0 := by
  cases fuel <;> rfl

theorem sizeFuel_pos {fuel v : Nat} (h : v ≠ 0) (hf : 0 < fuel) :
    0 < sizeFuel fuel v := by
  cases fuel with
  | zero => omega
  | succ n =>
    unfold sizeFuel
    rw [if_neg h]
    omega

theorem lt_two_pow_sizeFuel (fuel : Nat) :
    ∀ v, v < 2 ^ fuel → v < 2 ^ sizeFuel fuel v := by
  induction fuel with
  | zero =>
    intro v hv
    have : v = 0 := by omega
    subst this
    rw [sizeFuel_zero]
    omega
  | succ n ih =>
    intro v hv
    unfold sizeFuel
    split
    · rename_i h0; subst h0; omega
    · have hv2 : v / 2 < 2 ^ n := by
        have hp : 2 ^ (n + 1) = 2 * 2 ^ n := by ring
        omega
      have h1 := ih (v / 2) hv2
      have hp : 2 ^ (sizeFuel n (v / 2) + 1) = 2 * 2 ^ sizeFuel n (v / 2) := by
        ring
      have h2 := Nat.div_add_mod v 2
      have h3 : v % 2 < 2 := Nat.mod_lt v (by omega)
      omega

theorem two_pow_pred_sizeFuel_le (fuel : Nat) :
    ∀ v, v ≠ 0 → v < 2 ^ fuel → 2 ^ (sizeFuel fuel v - 1) ≤ v := by
  induction fuel with
  | zero => intro v h0 hv; omega
  | succ n ih =>
    intro v h0 hv
    unfold sizeFuel
    rw [if_neg h0]
    by_cases h2 : v / 2 = 0
    · rw [h2, sizeFuel_zero]
      simpa using Nat.one_le_iff_ne_zero.mpr h0
    · have hv2 : v / 2 < 2 ^ n := by
        have hp : 2 ^ (n + 1) = 2 * 2 ^ n := by ring
        omega
      have h1 := ih (v / 2) h2 hv2
      have hs : 0 < sizeFuel n (v / 2) := by
        cases n with
        | zero => omega
        | succ m => exact sizeFuel_pos h2 (by omega)
      obtain ⟨t, ht⟩ : ∃ t, sizeFuel n (v / 2) = t + 1 := ⟨_, (Nat.succ_pred_eq_of_pos hs).symm⟩
      rw [ht] at h1 ⊢
      simp only [Nat.add_sub_cancel] at h1 ⊢
      have hp : 2 ^ (t + 1) = 2 ^ t * 2 := by ring
      have := Nat.div_mul_le_self v 2
      have h4 : 2 ^ t * 2 ≤ v / 2 * 2 := Nat.mul_le_mul_right 2 h1
      omega

theorem lt_sizeFuel_of_two_pow_le (fuel : Nat) :
    ∀ k v, k < fuel → 2 ^ k ≤ v → k < sizeFuel fuel v := by
  induction fuel with
  | zero => intro k v hk; omega
  | succ n ih =>
    intro k v hk hle
    have h0 : v ≠ 0 := by
      have : 0 < 2 ^ k := Nat.pos_pow_of_pos k (by omega)
      omega
    unfold sizeFuel
    rw [if_neg h0]
    cases k with
    | zero => omega
    | succ j =>
      have hj : 2 ^ j ≤ v / 2 := by
        have hp : 2 ^ (j + 1) = 2 ^ j * 2 := by ring
        have h1 : 2 ^ (j + 1) / 2 ≤ v / 2 := Nat.div_le_div_right hle
        omega
      have := ih j (v / 2) (by omega) hj
      omega

theorem bitLength_lt (v : Nat) (hv : v < 2 ^ 128) : v < 2 ^ bitLength v :=
  lt_two_pow_sizeFuel 128 v hv

theorem bitLength_pred_le {v : Nat} (h0 : v ≠ 0) (hv : v < 2 ^ 128) :
    2 ^ (bitLength v - 1) ≤ v :=
  two_pow_pred_sizeFuel_le 128 v h0 hv

theorem bitLength_pos {v : Nat} (h0 : v ≠ 0) : 0 < bitLength v :=
  sizeFuel_pos h0 (by omega)

theorem bitLength_eq_of_bounds {v b : Nat} (hv : v < 2 ^ 128) (h0 : v ≠ 0)
    (hb : 0 < b) (hlo : 2 ^ (b - 1) ≤ v) (hhi : v < 2 ^ b) :
    bitLength v = b := by
  rcases Nat.lt_trichotomy (bitLength v) b with h | h | h
  · exfalso
    have h1 : bitLength v ≤ b - 1 := by omega
    have h2 : (2 : Nat) ^ bitLength v ≤ 2 ^ (b - 1) :=
      Nat.pow_le_pow_right (by omega) h1
    have h3 := bitLength_lt v hv
    omega
  · exact h
  · exfalso
    have h1 : b ≤ bitLength v - 1 := by omega
    have h2 : (2 : Nat) ^ b ≤ 2 ^ (bitLength v - 1) :=
      Nat.pow_le_pow_right (by omega) h1
    have h3 := bitLength_pred_le h0 hv
    omega

theorem bitLength_mul_two_pow {w k : Nat} (hw : w ≠ 0)
    (h : w * 2 ^ k < 2 ^ 128) : bitLength (w * 2 ^ k) = bitLength w + k := by
  have hwlt : w < 2 ^ 128 := by
    have h1 : 0 < 2 ^ k := Nat.pos_pow_of_pos k (by omega)
    have h2 : w ≤ w * 2 ^ k := Nat.le_mul_of_pos_right w h1
    omega
  have hb := bitLength_pos hw
  apply bitLength_eq_of_bounds h
  · positivity
  · omega
  · have h1 : 2 ^ (bitLength w + k - 1) = 2 ^ (bitLength w - 1) * 2 ^ k := by
      rw [← pow_add]
      congr 1
      omega
    rw [h1]
    exact Nat.mul_le_mul_right _ (bitLength_pred_le hw hwlt)
  · have h1 : 2 ^ (bitLength w + k) = 2 ^ bitLength w * 2 ^ k := by
      rw [pow_add]
    rw [h1]
    exact (Nat.mul_lt_mul_right (Nat.pos_pow_of_pos k (by omega))).mpr
      (bitLength_lt w hwlt)

theorem bitLength_le_storedBits (v : Nat) : bitLength v ≤ storedBits v := by
  unfold storedBits
  split <;> omega

theorem storedBits_pos (v : Nat) : 0 < storedBits v := by
  by_cases h : v = 0
  · subst h; decide
  · exact lt_of_lt_of_le (bitLength_pos h) (bitLength_le_storedBits v)

theorem lt_two_pow_storedBits {v : Nat} (hv : v < 2 ^ 128) :
    v < 2 ^ storedBits v :=
  lt_of_lt_of_le (bitLength_lt v hv)
    (Nat.pow_le_pow_right (by omega) (bitLength_le_storedBits v))

theorem storedBits_mul_two_pow_le {w k : Nat} (h : w * 2 ^ k < 2 ^ 128) :
    storedBits (w * 2 ^ k) ≤ storedBits w + k := by
  by_cases hw : w = 0
  · subst hw
    simp only [Nat.zero_mul]
    have : storedBits 0 = 1 := by decide
    omega
  · by_cases hk : k = 0
    · subst hk
      simp
    · have hbl : bitLength (w * 2 ^ k) = bitLength w + k :=
        bitLength_mul_two_pow hw h
      have heven : 2 ∣ w * 2 ^ k := by
        have : (2 : Nat) ∣ 2 ^ k := dvd_pow_self 2 hk
        exact Dvd.dvd.mul_left this w
      have hne0 : w * 2 ^ k ≠ 0 := by
        have h1 : 0 < 2 ^ k := Nat.pos_pow_of_pos k (by omega)
        positivity
      have hnow : ¬ (w * 2 ^ k + 1 = 2 ^ bitLength (w * 2 ^ k)) := by
        intro hcon
        have hb : 0 < bitLength (w * 2 ^ k) := bitLength_pos hne0
        have : (2 : Nat) ∣ 2 ^ bitLength (w * 2 ^ k) :=
          dvd_pow_self 2 (by omega)
        omega
      unfold storedBits
      rw [if_neg hnow, hbl]
      split <;> omega

theorem ne_all_ones_of_storedBits_le {v d : Nat} (hv : v < 2 ^ 128)
    (hd : d ≤ 128) (h : storedBits v ≤ d) : v ≠ 2 ^ d - 1 := by
  intro he
  have hd1 : 0 < d := by
    have := storedBits_pos v
    omega
  have hne : v ≠ 0 := by
    have h1 : (2 : Nat) ^ d ≥ 2 ^ 1 := Nat.pow_le_pow_right (by omega) hd1
    omega
  have hbl : bitLength v = d := by
    apply bitLength_eq_of_bounds hv hne hd1
    · have h1 : 2 ^ (d - 1) * 2 = 2 ^ d := by
        rw [← pow_succ]
        congr 1
        omega
      have h2 : 0 < (2 : Nat) ^ (d - 1) := Nat.pos_pow_of_pos _ (by omega)
      omega
    · have h2 : 0 < (2 : Nat) ^ d := Nat.pos_pow_of_pos _ (by omega)
      omega
  have hwide : v + 1 = 2 ^ bitLength v := by
    rw [hbl]
    have h2 : 0 < (2 : Nat) ^ d := Nat.pos_pow_of_pos _ (by omega)
    omega
  have : storedBits v = bitLength v + 1 := by
    unfold storedBits
    rw [if_pos hwide]
  omega

theorem two_pow_tzFuel_dvd (fuel : Nat) : ∀ v, 2 ^ tzFuel fuel v ∣ v := by
  induction fuel with
  | zero => intro v; simp [tzFuel]
  | succ n ih =>
    intro v
    unfold tzFuel
    split
    · simp
    · split
      · simp
      · rename_i h0 h1
        obtain ⟨c, hc⟩ := ih (v / 2)
        set t := tzFuel n (v / 2) with ht
        refine ⟨c, ?_⟩
        calc v = 2 * (v / 2) := by omega
        _ = 2 * (2 ^ t * c) := by rw [hc]
        _ = 2 ^ (t + 1) * c := by ring

theorem two_pow_trailingZeroCount_dvd (v : Nat) :
    2 ^ trailingZeroCount v ∣ v :=
  two_pow_tzFuel_dvd 128 v

theorem tzStored_le_trailingZeroCount (f v : Nat) :
    tzStored f v ≤ trailingZeroCount v := by
  unfold tzStored
  dsimp only
  split
  · omega
  · calc countMultiplierFor f *
        min (trailingZeroCount v / countMultiplierFor f)
          (2 ^ countBitsFor f - 1)
        ≤ countMultiplierFor f * (trailingZeroCount v / countMultiplierFor f) :=
          Nat.mul_le_mul_left _ (Nat.min_le_left _ _)
    _ ≤ trailingZeroCount v := Nat.mul_div_le _ _

theorem countMultiplierFor_dvd_tzStored (f v : Nat) :
    countMultiplierFor f ∣ tzStored f v := by
  unfold tzStored
  dsimp only
  split
  · simp_all
  · exact Dvd.intro _ rfl

theorem tzStored_le_cap (f v : Nat) :
    tzStored f v ≤ countMultiplierFor f * (2 ^ countBitsFor f - 1) := by
  unfold tzStored
  dsimp only
  split
  · omega
  · exact Nat.mul_le_mul_left _ (Nat.min_le_right _ _)


theorem two_pow_dvd_of_le_tz {v t : Nat} (h : t ≤ trailingZeroCount v) :
    2 ^ t ∣ v :=
  dvd_trans (pow_dvd_pow 2 h) (two_pow_trailingZeroCount_dvd v)

theorem bitCountFor_eq (f v : Nat) :
    bitCountFor f v = storedBits (v / 2 ^ tzStored f v) + tzStored f v := rfl

theorem storedBits_div_le {v t t' : Nat} (hv : v < 2 ^ 128)
    (hd : 2 ^ t ∣ v) (hle : t' ≤ t) :
    storedBits (v / 2 ^ t') ≤ storedBits (v / 2 ^ t) + (t - t') := by
  obtain ⟨w, hw⟩ := hd
  have hp : (2 : Nat) ^ t = 2 ^ t' * 2 ^ (t - t') := by
    rw [← pow_add]
    congr 1
    omega
  have h1 : v / 2 ^ t' = w * 2 ^ (t - t') := by
    rw [hw, hp, mul_assoc, mul_comm (2 ^ (t - t')) w]
    exact Nat.mul_div_cancel_left _ (Nat.pos_pow_of_pos t' (by omega))
  have h2 : v / 2 ^ t = w := by
    rw [hw]
    exact Nat.mul_div_cancel_left _ (Nat.pos_pow_of_pos t (by omega))
  rw [h1, h2]
  apply storedBits_mul_two_pow_le
  calc w * 2 ^ (t - t') = v / 2 ^ t' := h1.symm
  _ ≤ v := Nat.div_le_self v _
  _ < 2 ^ 128 := hv

theorem storable_lt_two_pow {v : Nat} (h : Storable v) : v < 2 ^ 128 := by
  by_contra hbig
  push_neg at hbig
  have key : ∀ f, f < 3 → storedBits (v / 2 ^ tzStored f v) ≥ 68 := by
    intro f _
    have ht : tzStored f v ≤ 60 := by
      have := tzStored_le_cap f v
      have hm : countMultiplierFor f * (2 ^ countBitsFor f - 1) ≤ 60 := by
        unfold countMultiplierFor countBitsFor
        split <;> split <;> simp_all
      omega
    have hres : 2 ^ 67 ≤ v / 2 ^ tzStored f v := by
      have h1 : v / 2 ^ 60 ≤ v / 2 ^ tzStored f v :=
        Nat.div_le_div_left (Nat.pow_le_pow_right (by omega) ht)
          (Nat.pos_pow_of_pos _ (by omega))
      have h2 : (2 : Nat) ^ 128 / 2 ^ 60 ≤ v / 2 ^ 60 :=
        Nat.div_le_div_right hbig
      have h3 : (2 : Nat) ^ 128 / 2 ^ 60 = 2 ^ 68 := by norm_num
      have h4 : (2 : Nat) ^ 67 ≤ 2 ^ 68 := by norm_num
      omega
    have h5 := lt_sizeFuel_of_two_pow_le 128 67 (v / 2 ^ tzStored f v)
      (by omega) hres
    have h6 := bitLength_le_storedBits (v / 2 ^ tzStored f v)
    unfold bitLength at h6
    omega
  have hfe : ∀ f, f < 3 → fitsEmptyFamily (makePendingValue v) f = false := by
    intro f hf
    apply decide_eq_false
    intro hcon
    have hbc : (makePendingValue v).bitCount.get f = bitCountFor f v := by
      unfold makePendingValue Quad.get
      interval_cases f <;> rfl
    have htz : (makePendingValue v).trailingZerosCount.get f = tzStored f v := by
      unfold makePendingValue Quad.get
      interval_cases f <;> rfl
    rw [hbc, htz, bitCountFor_eq] at hcon
    have h68 := key f hf
    have hcb : countBitsFor f ≤ 4 := by
      unfold countBitsFor
      split <;> omega
    have hov : selectorOverheadBits f ≤ 8 := by
      unfold selectorOverheadBits
      split <;> omega
    have hmax : storedBits (v / 2 ^ tzStored f v) + tzStored f v ≤
        max (kMinDataBits.get f) (storedBits (v / 2 ^ tzStored f v) + tzStored f v) :=
      le_max_right _ _
    omega
  unfold Storable at h
  unfold tooWideValue at h
  rw [hfe 0 (by omega), hfe 1 (by omega), hfe 2 (by omega)] at h
  simp at h

/-! ### Per-family array and envelope-fold facts -/

theorem quadMax_get (x y : Quad Nat) (f : Nat) :
    (quadMax x y).get f = max (x.get f) (y.get f) := by
  cases f with
  | zero => rfl
  | succ g =>
    cases g with
    | zero => rfl
    | succ g2 =>
      cases g2 with
      | zero => rfl
      | succ g3 => rfl

theorem quadMin_get (x y : Quad Nat) (f : Nat) :
    (quadMin x y).get f = min (x.get f) (y.get f) := by
  cases f with
  | zero => rfl
  | succ g =>
    cases g with
    | zero => rfl
    | succ g2 =>
      cases g2 with
      | zero => rfl
      | succ g3 => rfl

theorem foldMax_seed_le (f : Nat) :
    ∀ (l : List PendingValue) (q : Quad Nat),
      q.get f ≤ (l.foldl (fun q pv => quadMax q pv.bitCount) q).get f := by
  intro l
  induction l with
  | nil => intro q; exact Nat.le_refl _
  | cons x xs ih =>
    intro q
    calc q.get f ≤ (quadMax q x.bitCount).get f := by
          rw [quadMax_get]; exact le_max_left _ _
    _ ≤ _ := ih (quadMax q x.bitCount)

theorem foldMax_mem_le (f : Nat) :
    ∀ (l : List PendingValue) (q : Quad Nat) (pv : PendingValue), pv ∈ l →
      pv.bitCount.get f ≤ (l.foldl (fun q pv => quadMax q pv.bitCount) q).get f := by
  intro l
  induction l with
  | nil => intro q pv h; exact absurd h (List.not_mem_nil pv)
  | cons x xs ih =>
    intro q pv h
    rcases List.mem_cons.mp h with h1 | h2
    · subst h1
      calc pv.bitCount.get f ≤ (quadMax q pv.bitCount).get f := by
            rw [quadMax_get]; exact le_max_right _ _
      _ ≤ _ := foldMax_seed_le f xs _
    · exact ih _ pv h2

theorem foldMax_le (f bound : Nat) :
    ∀ (l : List PendingValue) (q : Quad Nat),
      q.get f ≤ bound → (∀ pv ∈ l, pv.bitCount.get f ≤ bound) →
      (l.foldl (fun q pv => quadMax q pv.bitCount) q).get f ≤ bound := by
  intro l
  induction l with
  | nil => intro q hq _; exact hq
  | cons x xs ih =>
    intro q hq hall
    apply ih
    · rw [quadMax_get]
      exact max_le hq (hall x (List.mem_cons_self x xs))
    · intro pv h
      exact hall pv (List.mem_cons_of_mem x h)

theorem foldMaxBits_mem_le (f : Nat) (l : List PendingValue) (pv : PendingValue)
    (h : pv ∈ l) : pv.bitCount.get f ≤ (foldMaxBits l).get f :=
  foldMax_mem_le f l kMinDataBits pv h

theorem kMin_le_foldMaxBits (f : Nat) (l : List PendingValue) :
    kMinDataBits.get f ≤ (foldMaxBits l).get f :=
  foldMax_seed_le f l kMinDataBits

theorem foldMaxBits_le (f bound : Nat) (l : List PendingValue)
    (hk : kMinDataBits.get f ≤ bound)
    (hall : ∀ pv ∈ l, pv.bitCount.get f ≤ bound) :
    (foldMaxBits l).get f ≤ bound :=
  foldMax_le f bound l kMinDataBits hk hall

theorem foldMin_le_seed (f : Nat) :
    ∀ (l : List PendingValue) (q : Quad Nat),
      (l.foldl (fun q pv => quadMin q pv.trailingZerosCount) q).get f ≤ q.get f := by
  intro l
  induction l with
  | nil => intro q; exact Nat.le_refl _
  | cons x xs ih =>
    intro q
    calc (xs.foldl (fun q pv => quadMin q pv.trailingZerosCount)
          (quadMin q x.trailingZerosCount)).get f
        ≤ (quadMin q x.trailingZerosCount).get f := ih _
    _ ≤ q.get f := by rw [quadMin_get]; exact min_le_left _ _

theorem foldMin_mem_le (f : Nat) :
    ∀ (l : List PendingValue) (q : Quad Nat) (pv : PendingValue), pv ∈ l →
      (l.foldl (fun q pv => quadMin q pv.trailingZerosCount) q).get f ≤
        pv.trailingZerosCount.get f := by
  intro l
  induction l with
  | nil => intro q pv h; exact absurd h (List.not_mem_nil pv)
  | cons x xs ih =>
    intro q pv h
    rcases List.mem_cons.mp h with h1 | h2
    · subst h1
      calc _ ≤ (quadMin q pv.trailingZerosCount).get f := foldMin_le_seed f xs _
      _ ≤ pv.trailingZerosCount.get f := by
            rw [quadMin_get]; exact min_le_right _ _
    · exact ih _ pv h2

theorem foldMin_ge (f bound : Nat) :
    ∀ (l : List PendingValue) (q : Quad Nat),
      bound ≤ q.get f → (∀ pv ∈ l, bound ≤ pv.trailingZerosCount.get f) →
      bound ≤ (l.foldl (fun q pv => quadMin q pv.trailingZerosCount) q).get f := by
  intro l
  induction l with
  | nil => intro q hq _; exact hq
  | cons x xs ih =>
    intro q hq hall
    apply ih
    · rw [quadMin_get]
      exact le_min hq (hall x (List.mem_cons_self x xs))
    · intro pv h
      exact hall pv (List.mem_cons_of_mem x h)

theorem foldMin_pred (P : Nat → Prop) (f : Nat)
    (hP : ∀ a b, P a → P b → P (min a b)) :
    ∀ (l : List PendingValue) (q : Quad Nat),
      P (q.get f) → (∀ pv ∈ l, P (pv.trailingZerosCount.get f)) →
      P ((l.foldl (fun q pv => quadMin q pv.trailingZerosCount) q).get f) := by
  intro l
  induction l with
  | nil => intro q hq _; exact hq
  | cons x xs ih =>
    intro q hq hall
    apply ih
    · rw [quadMin_get]
      exact hP _ _ hq (hall x (List.mem_cons_self x xs))
    · intro pv h
      exact hall pv (List.mem_cons_of_mem x h)

theorem zero_quad_get (f : Nat) : (⟨0, 0, 0, 0⟩ : Quad Nat).get f = 0 := by
  cases f with
  | zero => rfl
  | succ g =>
    cases g with
    | zero => rfl
    | succ g2 =>
      cases g2 with
      | zero => rfl
      | succ g3 => rfl

theorem foldTz_le_mem (f : Nat) (l : List PendingValue) (pv : PendingValue)
    (hm : pv ∈ l) (hs : pv.skip = false) :
    (foldTz l).get f ≤ pv.trailingZerosCount.get f := by
  have hmf : pv ∈ l.filter (fun pv => !pv.skip) :=
    List.mem_filter.mpr ⟨hm, by rw [hs]; rfl⟩
  unfold foldTz
  cases hfil : l.filter (fun pv => !pv.skip) with
  | nil => rw [hfil] at hmf; exact absurd hmf (List.not_mem_nil pv)
  | cons x xs =>
    rw [hfil] at hmf
    rcases List.mem_cons.mp hmf with h1 | h2
    · subst h1
      exact foldMin_le_seed f xs _
    · exact foldMin_mem_le f xs _ pv h2

theorem foldTz_allskip (l : List PendingValue)
    (h : ∀ pv ∈ l, pv.skip = true) : foldTz l = ⟨0, 0, 0, 0⟩ := by
  unfold foldTz
  have hfil : l.filter (fun pv => !pv.skip) = [] := by
    rw [List.filter_eq_nil_iff]
    intro pv hm
    rw [h pv hm]
    simp
  rw [hfil]

theorem foldTz_ge (f bound : Nat) (l : List PendingValue)
    (hall : ∀ pv ∈ l, pv.skip = false → bound ≤ pv.trailingZerosCount.get f)
    (pv0 : PendingValue) (h0 : pv0 ∈ l) (hs0 : pv0.skip = false) :
    bound ≤ (foldTz l).get f := by
  have hmf : pv0 ∈ l.filter (fun pv => !pv.skip) :=
    List.mem_filter.mpr ⟨h0, by rw [hs0]; rfl⟩
  have hsub : ∀ pv ∈ l.filter (fun pv => !pv.skip),
      bound ≤ pv.trailingZerosCount.get f := by
    intro pv hm
    have := List.mem_filter.mp hm
    exact hall pv this.1 (by
      have h2 := this.2
      simp only [Bool.not_eq_true'] at h2
      exact h2)
  unfold foldTz
  cases hfil : l.filter (fun pv => !pv.skip) with
  | nil => rw [hfil] at hmf; exact absurd hmf (List.not_mem_nil pv0)
  | cons x xs =>
    rw [hfil] at hsub
    exact foldMin_ge f bound xs _ (hsub x (List.mem_cons_self x xs))
      (fun pv hm => hsub pv (List.mem_cons_of_mem x hm))

theorem foldTz_pred (P : Nat → Prop) (f : Nat)
    (hP : ∀ a b, P a → P b → P (min a b)) (h0 : P 0)
    (l : List PendingValue)
    (hall : ∀ pv ∈ l, pv.skip = false → P (pv.trailingZerosCount.get f)) :
    P ((foldTz l).get f) := by
  have hsub : ∀ pv ∈ l.filter (fun pv => !pv.skip),
      P (pv.trailingZerosCount.get f) := by
    intro pv hm
    have := List.mem_filter.mp hm
    exact hall pv this.1 (by
      have h2 := this.2
      simp only [Bool.not_eq_true'] at h2
      exact h2)
  unfold foldTz
  cases hfil : l.filter (fun pv => !pv.skip) with
  | nil => rw [zero_quad_get]; exact h0
  | cons x xs =>
    rw [hfil] at hsub
    exact foldMin_pred P f hP xs _ (hsub x (List.mem_cons_self x xs))
      (fun pv hm => hsub pv (List.mem_cons_of_mem x hm))

/-! ### Slot-level packing and unpacking -/

theorem extract_mod {a b w : Nat} (h : a < 2 ^ w) :
    (a + 2 ^ w * b) % 2 ^ w = a := by
  rw [Nat.add_mul_mod_self_left, Nat.mod_eq_of_lt h]

theorem extract_div {a b w : Nat} (h : a < 2 ^ w) :
    (a + 2 ^ w * b) / 2 ^ w = b := by
  rw [Nat.add_mul_div_left _ _ (Nat.pos_pow_of_pos w (by omega)),
    Nat.div_eq_of_lt h, Nat.zero_add]

theorem all_ones_decompose (d cb : Nat) :
    2 ^ (d + cb) - 1 = (2 ^ d - 1) * 2 ^ cb + (2 ^ cb - 1) := by
  have h1 : (2 : Nat) ^ (d + cb) = 2 ^ d * 2 ^ cb := pow_add 2 d cb
  have h2 : ((2 : Nat) ^ d - 1) * 2 ^ cb = 2 ^ d * 2 ^ cb - 1 * 2 ^ cb :=
    Nat.sub_mul _ _ _
  have h3 : (0 : Nat) < 2 ^ d := Nat.pos_pow_of_pos d (by omega)
  have h4 : (0 : Nat) < 2 ^ cb := Nat.pos_pow_of_pos cb (by omega)
  have h5 : (2 : Nat) ^ cb ≤ 2 ^ d * 2 ^ cb := Nat.le_mul_of_pos_left _ h3
  omega

theorem slot_roundtrip (f d tz : Nat) (hf : f < 3) (hd : d ≤ 60)
    (pv : PendingValue)
    (hpv : pv = skipPendingValue ∨
      (pv.skip = false ∧ pv.val < 2 ^ 128 ∧
        storedBits (pv.val / 2 ^ tz) ≤ d ∧ 2 ^ tz ∣ pv.val ∧
        countMultiplierFor f ∣ tz ∧
        tz / countMultiplierFor f < 2 ^ countBitsFor f ∧
        (f = 0 → tz = 0))) :
    slotValue f d tz pv < 2 ^ (d + countBitsFor f) ∧
    ((if slotValue f d tz pv = 2 ^ (d + countBitsFor f) - 1 then none
      else if f = 1 ∨ f = 2 then
        some (slotValue f d tz pv / 2 ^ countBitsFor f *
          2 ^ (slotValue f d tz pv % 2 ^ countBitsFor f * countMultiplierFor f))
      else some (slotValue f d tz pv)) = pvOpt pv) := by
  rcases hpv with hs | ⟨hsk, hv128, hsb, hdvd, hmdvd, hqlt, hbase⟩
  · subst hs
    have hslot : slotValue f d tz skipPendingValue =
        2 ^ (d + countBitsFor f) - 1 := by
      unfold slotValue skipPendingValue
      rfl
    constructor
    · rw [hslot]
      have : (0 : Nat) < 2 ^ (d + countBitsFor f) :=
        Nat.pos_pow_of_pos _ (by omega)
      omega
    · rw [hslot, if_pos rfl]
      rfl
  · have hres128 : pv.val / 2 ^ tz < 2 ^ 128 :=
      lt_of_le_of_lt (Nat.div_le_self _ _) hv128
    have hreslt : pv.val / 2 ^ tz < 2 ^ d :=
      lt_of_lt_of_le (lt_two_pow_storedBits hres128)
        (Nat.pow_le_pow_right (by omega) hsb)
    have hresne : pv.val / 2 ^ tz ≠ 2 ^ d - 1 :=
      ne_all_ones_of_storedBits_le hres128 (by omega) hsb
    have hrecon : pv.val / 2 ^ tz * 2 ^ tz = pv.val := Nat.div_mul_cancel hdvd
    interval_cases f
    · have htz : tz = 0 := hbase rfl
      subst htz
      have hcb : countBitsFor 0 = 0 := rfl
      have hm : countMultiplierFor 0 = 0 := rfl
      have hslot : slotValue 0 d 0 pv = pv.val := by
        unfold slotValue
        rw [if_neg (by rw [hsk]; exact Bool.false_ne_true), hcb, hm]
        simp
      rw [hslot, hcb]
      constructor
      · simpa using hreslt
      · rw [if_neg (by simpa using hresne)]
        rw [if_neg (by omega)]
        unfold pvOpt
        rw [hsk]
        rfl
    · have hcb : countBitsFor 1 = 4 := rfl
      have hm : countMultiplierFor 1 = 1 := rfl
      rw [hcb, hm] at hqlt ⊢
      have hq : tz / 1 = tz := Nat.div_one tz
      rw [hq] at hqlt
      have hslot : slotValue 1 d tz pv = tz + 2 ^ 4 * (pv.val / 2 ^ tz) := by
        unfold slotValue
        rw [if_neg (by rw [hsk]; exact Bool.false_ne_true), hcb, hm]
        rw [if_neg (by omega), hq]
        ring
      have hp16 : (2 : Nat) ^ (d + 4) = 2 ^ d * 2 ^ 4 := pow_add 2 d 4
      have hpos : (0 : Nat) < 2 ^ d := Nat.pos_pow_of_pos d (by omega)
      constructor
      · rw [hslot, hp16]
        have : (2 : Nat) ^ 4 = 16 := by norm_num
        omega
      · have hmod : slotValue 1 d tz pv % 2 ^ 4 = tz := by
          rw [hslot]; exact extract_mod hqlt
        have hdiv : slotValue 1 d tz pv / 2 ^ 4 = pv.val / 2 ^ tz := by
          rw [hslot]; exact extract_div hqlt
        have hnall : slotValue 1 d tz pv ≠ 2 ^ (d + 4) - 1 := by
          rw [hslot, all_ones_decompose d 4]
          intro hcon
          apply hresne
          omega
        rw [if_neg hnall, if_pos (Or.inl rfl), hmod, hdiv]
        rw [Nat.mul_one, hrecon]
        unfold pvOpt
        rw [hsk]
        rfl
    · have hcb : countBitsFor 2 = 4 := rfl
      have hm : countMultiplierFor 2 = 4 := rfl
      rw [hcb, hm] at hqlt ⊢
      rw [hm] at hmdvd
      have hslot : slotValue 2 d tz pv =
          tz / 4 + 2 ^ 4 * (pv.val / 2 ^ tz) := by
        unfold slotValue
        rw [if_neg (by rw [hsk]; exact Bool.false_ne_true), hcb, hm]
        rw [if_neg (by omega)]
        ring
      have hp16 : (2 : Nat) ^ (d + 4) = 2 ^ d * 2 ^ 4 := pow_add 2 d 4
      have hpos : (0 : Nat) < 2 ^ d := Nat.pos_pow_of_pos d (by omega)
      constructor
      · rw [hslot, hp16]
        have : (2 : Nat) ^ 4 = 16 := by norm_num
        omega
      · have hmod : slotValue 2 d tz pv % 2 ^ 4 = tz / 4 := by
          rw [hslot]; exact extract_mod hqlt
        have hdiv : slotValue 2 d tz pv / 2 ^ 4 = pv.val / 2 ^ tz := by
          rw [hslot]; exact extract_div hqlt
        have hnall : slotValue 2 d tz pv ≠ 2 ^ (d + 4) - 1 := by
          rw [hslot, all_ones_decompose d 4]
          intro hcon
          apply hresne
          omega
        rw [if_neg hnall, if_pos (Or.inr rfl), hmod, hdiv]
        rw [Nat.div_mul_cancel hmdvd, hrecon]
        unfold pvOpt
        rw [hsk]
        rfl

theorem decodeSlots_packSlots (f d tz : Nat) (hf : f < 3) (hd : d ≤ 60) :
    ∀ l : List PendingValue,
      (∀ pv ∈ l, pv = skipPendingValue ∨
        (pv.skip = false ∧ pv.val < 2 ^ 128 ∧
          storedBits (pv.val / 2 ^ tz) ≤ d ∧ 2 ^ tz ∣ pv.val ∧
          countMultiplierFor f ∣ tz ∧
          tz / countMultiplierFor f < 2 ^ countBitsFor f ∧
          (f = 0 → tz = 0))) →
      decodeSlots f d (packSlots f d tz l) l.length = l.map pvOpt := by
  intro l
  induction l with
  | nil => intro _; rfl
  | cons pv rest ih =>
    intro hall
    have hpv := hall pv (List.mem_cons_self pv rest)
    have hrt := slot_roundtrip f d tz hf hd pv hpv
    show decodeSlots f d (packSlots f d tz (pv :: rest)) (rest.length + 1) =
      pvOpt pv :: rest.map pvOpt
    unfold decodeSlots packSlots
    dsimp only
    have hmod : (slotValue f d tz pv +
        2 ^ (d + countBitsFor f) * packSlots f d tz rest) %
        2 ^ (d + countBitsFor f) = slotValue f d tz pv := extract_mod hrt.1
    have hdiv : (slotValue f d tz pv +
        2 ^ (d + countBitsFor f) * packSlots f d tz rest) /
        2 ^ (d + countBitsFor f) = packSlots f d tz rest := extract_div hrt.1
    rw [hmod, hdiv, hrt.2]
    congr 1
    exact ih (fun q hq => hall q (List.mem_cons_of_mem pv hq))

/-! ### Table and word-level facts -/

theorem kBaseTable_rows :
    ∀ e ∈ kBaseTable,
      lookupBySelector e.1 = some (e.2.1, e.2.2) ∧ e.1 < 16 ∧
      e.1 ≠ 0 ∧ e.1 ≠ 1 ∧ e.1 ≠ 2 ∧ e.1 ≠ 7 ∧ e.1 ≠ 8 ∧
      1 ≤ e.2.1 ∧ e.2.1 ≤ 60 ∧ 1 ≤ e.2.2 := by decide

theorem kExt7Table_rows :
    ∀ e ∈ kExt7Table,
      lookupSub 1 e.1 = some (e.2.1, e.2.2) ∧ e.1 < 16 ∧
      1 ≤ e.2.1 ∧ e.2.1 ≤ 60 ∧ 1 ≤ e.2.2 := by decide

theorem kExt8Table_rows :
    ∀ e ∈ kExt8Table,
      lookupSub 2 e.1 = some (e.2.1, e.2.2) ∧ e.1 < 16 ∧
      1 ≤ e.2.1 ∧ e.2.1 ≤ 60 ∧ 1 ≤ e.2.2 := by decide

theorem tableFor_rows (f : Nat) (hf : f < 3) :
    ∀ e ∈ tableFor f, e.1 < 16 ∧ 1 ≤ e.2.1 ∧ e.2.1 ≤ 60 ∧ 1 ≤ e.2.2 := by
  interval_cases f
  · intro e he
    obtain ⟨_, h2, _, _, _, _, _, h8, h9, h10⟩ := kBaseTable_rows e he
    exact ⟨h2, h8, h9, h10⟩
  · intro e he
    obtain ⟨_, h2, h3, h4, h5⟩ := kExt7Table_rows e he
    exact ⟨h2, h3, h4, h5⟩
  · intro e he
    obtain ⟨_, h2, h3, h4, h5⟩ := kExt8Table_rows e he
    exact ⟨h2, h3, h4, h5⟩

theorem findLayout_facts (f needed len : Nat) (hf : f < 3) (hlen : 1 ≤ len)
    (hneed : needed ≤ 64 - selectorOverheadBits f - countBitsFor f) :
    findLayout f needed len ∈ tableFor f ∧
    (findLayout f needed len).2.2 ≤ len ∧
    needed ≤ (findLayout f needed len).2.1 := by
  have hlast : ∃ e ∈ tableFor f,
      (decide (e.2.2 ≤ len) && decide (needed ≤ e.2.1)) = true := by
    interval_cases f
    · refine ⟨(15, 60, 1), by decide, ?_⟩
      have h1 : selectorOverheadBits 0 = 4 := rfl
      have h2 : countBitsFor 0 = 0 := rfl
      rw [h1, h2] at hneed
      simp only [Bool.and_eq_true, decide_eq_true_eq]
      exact ⟨hlen, by omega⟩
    · refine ⟨(10, 52, 1), by decide, ?_⟩
      have h1 : selectorOverheadBits 1 = 8 := rfl
      have h2 : countBitsFor 1 = 4 := rfl
      rw [h1, h2] at hneed
      simp only [Bool.and_eq_true, decide_eq_true_eq]
      exact ⟨hlen, by omega⟩
    · refine ⟨(8, 52, 1), by decide, ?_⟩
      have h1 : selectorOverheadBits 2 = 8 := rfl
      have h2 : countBitsFor 2 = 4 := rfl
      rw [h1, h2] at hneed
      simp only [Bool.and_eq_true, decide_eq_true_eq]
      exact ⟨hlen, by omega⟩
  cases hfind : (tableFor f).find?
      (fun e => decide (e.2.2 ≤ len) && decide (needed ≤ e.2.1)) with
  | none =>
    exfalso
    obtain ⟨e, hmem, hpred⟩ := hlast
    have hno := List.find?_eq_none.mp hfind e hmem
    rw [hpred] at hno
    exact hno rfl
  | some e =>
    have hmem := List.mem_of_find?_eq_some hfind
    have hpred := List.find?_some hfind
    simp only [Bool.and_eq_true, decide_eq_true_eq] at hpred
    unfold findLayout
    rw [hfind]
    exact ⟨hmem, hpred.1, hpred.2⟩

theorem decodeWord_packWord_base (sel d c : Nat)
    (hrow : (sel, d, c) ∈ kBaseTable) (tz : Nat)
    (taken : List PendingValue) (hlen : taken.length = c)
    (hall : ∀ pv ∈ taken, pv = skipPendingValue ∨
      (pv.skip = false ∧ pv.val < 2 ^ 128 ∧
        storedBits (pv.val / 2 ^ tz) ≤ d ∧ 2 ^ tz ∣ pv.val ∧
        countMultiplierFor 0 ∣ tz ∧
        tz / countMultiplierFor 0 < 2 ^ countBitsFor 0 ∧
        (0 = 0 → tz = 0)))
    (dlast : Option Nat) :
    decodeWord dlast (packWord 0 sel 0 d tz taken) =
      some (taken.map pvOpt) := by
  obtain ⟨hlook, hsel16, hs0, hs1, hs2, hs7, hs8, hd1, hd60, hc1⟩ :=
    kBaseTable_rows (sel, d, c) hrow
  have hw : packWord 0 sel 0 d tz taken =
      sel + 16 * packSlots 0 d tz taken := by
    unfold packWord
    rw [if_neg (by decide)]
  have hsel : (sel + 16 * packSlots 0 d tz taken) % 16 = sel := by omega
  have hdiv : (sel + 16 * packSlots 0 d tz taken) / 16 =
      packSlots 0 d tz taken := by omega
  unfold decodeWord
  rw [hw]
  dsimp only
  rw [hsel]
  rw [if_neg hs0, if_neg hs1, if_neg hs2,
    if_neg (show ¬ (sel = 7 ∨ sel = 8) by
      intro hc
      rcases hc with hc | hc
      · exact hs7 hc
      · exact hs8 hc)]
  rw [hlook]
  dsimp only
  rw [hdiv, ← hlen]
  rw [decodeSlots_packSlots 0 d tz (by omega) (by dsimp only at hd60; omega)
    taken hall]

theorem decodeWord_packWord_ext (f : Nat) (hf : f = 1 ∨ f = 2)
    (sub d c : Nat) (hrow : (sub, d, c) ∈ tableFor f) (tz : Nat)
    (taken : List PendingValue) (hlen : taken.length = c)
    (hall : ∀ pv ∈ taken, pv = skipPendingValue ∨
      (pv.skip = false ∧ pv.val < 2 ^ 128 ∧
        storedBits (pv.val / 2 ^ tz) ≤ d ∧ 2 ^ tz ∣ pv.val ∧
        countMultiplierFor f ∣ tz ∧
        tz / countMultiplierFor f < 2 ^ countBitsFor f ∧
        (f = 0 → tz = 0)))
    (dlast : Option Nat) :
    decodeWord dlast
        (packWord f (if f = 1 then 7 else 8) sub d tz taken) =
      some (taken.map pvOpt) := by
  rcases hf with hf | hf
  · subst hf
    obtain ⟨hlook, hsub16, hd1, hd60, hc1⟩ := kExt7Table_rows (sub, d, c) hrow
    have hw : packWord 1 7 sub d tz taken =
        7 + 16 * sub + 256 * packSlots 1 d tz taken := by
      unfold packWord
      rw [if_pos (Or.inl rfl)]
    set P := packSlots 1 d tz taken with hP
    have hsel : (7 + 16 * sub + 256 * P) % 16 = 7 := by omega
    have hd16 : (7 + 16 * sub + 256 * P) / 16 % 16 = sub := by omega
    have hd256 : (7 + 16 * sub + 256 * P) / 256 = P := by omega
    unfold decodeWord
    rw [show (if (1 : Nat) = 1 then (7 : Nat) else 8) = 7 from rfl]
    rw [hw]
    dsimp only
    rw [hsel]
    rw [if_neg (by omega), if_neg (by omega), if_neg (by omega),
      if_pos (Or.inl rfl), if_pos rfl, hd16]
    rw [hlook]
    dsimp only
    rw [hd256, ← hlen, hP]
    rw [decodeSlots_packSlots 1 d tz (by omega) (by dsimp only at hd60; omega)
      taken hall]
  · subst hf
    obtain ⟨hlook, hsub16, hd1, hd60, hc1⟩ := kExt8Table_rows (sub, d, c) hrow
    have hw : packWord 2 8 sub d tz taken =
        8 + 16 * sub + 256 * packSlots 2 d tz taken := by
      unfold packWord
      rw [if_pos (Or.inr rfl)]
    set P := packSlots 2 d tz taken with hP
    have hsel : (8 + 16 * sub + 256 * P) % 16 = 8 := by omega
    have hd16 : (8 + 16 * sub + 256 * P) / 16 % 16 = sub := by omega
    have hd256 : (8 + 16 * sub + 256 * P) / 256 = P := by omega
    unfold decodeWord
    rw [show (if (2 : Nat) = 1 then (7 : Nat) else 8) = 8 from rfl]
    rw [hw]
    dsimp only
    rw [hsel]
    rw [if_neg (by omega), if_neg (by omega), if_neg (by omega),
      if_pos (Or.inr rfl), if_neg (by omega), hd16]
    rw [hlook]
    dsimp only
    rw [hd256, ← hlen, hP]
    rw [decodeSlots_packSlots 2 d tz (by omega) (by dsimp only at hd60; omega)
      taken hall]

theorem makePV_skip (v : Nat) : (makePendingValue v).skip = false := rfl

theorem makePV_val (v : Nat) : (makePendingValue v).val = v := rfl

theorem makePV_bitCount_get (f v : Nat) (hf : f < 3) :
    (makePendingValue v).bitCount.get f = bitCountFor f v := by
  interval_cases f <;> rfl

theorem makePV_tz_get (f v : Nat) (hf : f < 3) :
    (makePendingValue v).trailingZerosCount.get f = tzStored f v := by
  interval_cases f <;> rfl

theorem skipPV_bitCount_get (f : Nat) : skipPendingValue.bitCount.get f = 0 :=
  zero_quad_get f

theorem skipPV_tz_get (f : Nat) :
    skipPendingValue.trailingZerosCount.get f = 0 :=
  zero_quad_get f

theorem div_lt_pow_of_le_cap {tz m cb : Nat}
    (h : tz ≤ m * (2 ^ cb - 1)) : tz / m < 2 ^ cb := by
  cases m with
  | zero =>
    rw [Nat.div_zero]
    exact Nat.pos_pow_of_pos cb (by omega)
  | succ k =>
    have h1 : tz / (k + 1) ≤ (k + 1) * (2 ^ cb - 1) / (k + 1) :=
      Nat.div_le_div_right h
    have h2 : (k + 1) * (2 ^ cb - 1) / (k + 1) = 2 ^ cb - 1 :=
      Nat.mul_div_cancel_left _ (by omega)
    have h3 : 0 < (2 : Nat) ^ cb := Nat.pos_pow_of_pos cb (by omega)
    omega

theorem kMin_family_bound (f : Nat) (hf : f < 3) :
    kMinDataBits.get f ≤ 4 ∧
    4 ≤ 64 - selectorOverheadBits f - countBitsFor f := by
  interval_cases f <;> exact ⟨by decide, by decide⟩

theorem getLast?_map_pvOpt :
    ∀ l : List PendingValue,
      (l.map pvOpt).getLast? = (l.getLast?).map pvOpt := by
  intro l
  induction l with
  | nil => rfl
  | cons x t ih =>
    cases t with
    | nil => rfl
    | cons y u =>
      show ((pvOpt x :: pvOpt y :: u.map pvOpt).getLast? =
        ((x :: y :: u).getLast?).map pvOpt)
      rw [List.getLast?_cons_cons, List.getLast?_cons_cons]
      exact ih

theorem getLast?_some_of_ne_nil {α : Type} (l : List α) (h : l ≠ []) :
    ∃ x, l.getLast? = some x ∧ x ∈ l := by
  induction l with
  | nil => exact absurd rfl h
  | cons a t ih =>
    cases t with
    | nil => exact ⟨a, rfl, List.mem_singleton_self a⟩
    | cons b u =>
      obtain ⟨x, hx, hmem⟩ := ih (by simp)
      exact ⟨x, by rw [List.getLast?_cons_cons]; exact hx,
        List.mem_cons_of_mem a hmem⟩

theorem tableFor_count_pos (f : Nat) : ∀ e ∈ tableFor f, 1 ≤ e.2.2 := by
  unfold tableFor
  split
  · decide
  · split
    · decide
    · decide

theorem findLayout_count_pos (f needed len : Nat) :
    1 ≤ (findLayout f needed len).2.2 := by
  unfold findLayout
  cases hfind : (tableFor f).find?
      (fun e => decide (e.2.2 ≤ len) && decide (needed ≤ e.2.1)) with
  | none =>
    dsimp only
    split
    · decide
    · split
      · decide
      · decide
  | some e =>
    dsimp only
    exact tableFor_count_pos f e (List.mem_of_find?_eq_some hfind)

theorem emitWord_state (s : BuilderState) (f : Nat) (hg : GOOD s)
    (hne : s.pendingValues ≠ []) (hrle : s.rleCount = 0) :
    GOOD (emitWord s f).1 ∧ (emitWord s f).1.rleCount = 0 ∧
    (emitWord s f).1.lastValidExtensionType = s.lastValidExtensionType ∧
    (emitWord s f).1.pendingValues.length < s.pendingValues.length := by
  obtain ⟨henv, hpwf, her, hast, hnb, hlw, hrw⟩ := hg
  have hlpos : 0 < s.pendingValues.length := List.length_pos.mpr hne
  set c := (findLayout f
    (s.currMaxBitLen.get f - s.currTrailingZerosCount.get f)
    s.pendingValues.length).2.2 with hcdef
  have hcpos : 1 ≤ c := findLayout_count_pos f _ _
  have hrest : (emitWord s f).1.pendingValues = s.pendingValues.drop c := rfl
  have hlast : (emitWord s f).1.lastValueInPrevWord =
    ((s.pendingValues.take c).getLast?).getD s.lastValueInPrevWord := rfl
  have hmax : (emitWord s f).1.currMaxBitLen =
    foldMaxBits (s.pendingValues.drop c) := rfl
  have htzq : (emitWord s f).1.currTrailingZerosCount =
    foldTz (s.pendingValues.drop c) := rfl
  have hflags : (emitWord s f).1.isSelectorPossible =
    ⟨true, true, true, true⟩ := rfl
  have hrleq : (emitWord s f).1.rleCount = s.rleCount := rfl
  have hvalidq : (emitWord s f).1.lastValidExtensionType =
    s.lastValidExtensionType := rfl
  have hsubset : ∀ pv ∈ s.pendingValues.drop c, pv ∈ s.pendingValues :=
    fun pv hm => List.drop_subset c s.pendingValues hm
  refine ⟨⟨?_, ?_, ?_, ?_, ?_, ?_, ?_⟩, by rw [hrleq, hrle],
    hvalidq, ?_⟩
  · -- EnvOK
    intro f2 hf2
    obtain ⟨hbc2, htz2, hdvd2, hcap2, hkmin2⟩ := henv f2 hf2
    rw [hmax, htzq, hrest]
    refine ⟨?_, ?_, ?_, ?_, ?_⟩
    · intro pv hm
      exact foldMaxBits_mem_le f2 _ pv hm
    · intro pv hm hs
      exact foldTz_le_mem f2 _ pv hm hs
    · refine foldTz_pred (fun a => countMultiplierFor f2 ∣ a) f2
        (fun a b ha hb => ?_) (dvd_zero _) _ (fun pv hm hs => ?_)
      · rcases min_choice a b with h | h <;> rw [h] <;> assumption
      · rcases hpwf pv (hsubset pv hm) with hskip | ⟨_, heq, _⟩
        · rw [hskip] at hs
          exact absurd hs (by decide)
        · rw [heq]
          rw [makePV_tz_get f2 pv.val hf2]
          exact countMultiplierFor_dvd_tzStored f2 pv.val
    · refine foldTz_pred
        (fun a => a ≤ countMultiplierFor f2 * (2 ^ countBitsFor f2 - 1)) f2
        (fun a b ha hb => ?_) (Nat.zero_le _) _ (fun pv hm hs => ?_)
      · rcases min_choice a b with h | h <;> rw [h] <;> assumption
      · rcases hpwf pv (hsubset pv hm) with hskip | ⟨_, heq, _⟩
        · rw [hskip] at hs
          exact absurd hs (by decide)
        · rw [heq]
          rw [makePV_tz_get f2 pv.val hf2]
          exact tzStored_le_cap f2 pv.val
    · exact kMin_le_foldMaxBits f2 _
  · -- PendingWF
    intro pv hm
    rw [hrest] at hm
    exact hpwf pv (hsubset pv hm)
  · -- EmptyReset
    intro hnil
    rw [hrest] at hnil
    refine ⟨?_, ?_, hflags⟩
    · rw [hmax, hnil]
      rfl
    · rw [htzq, hnil]
      rfl
  · -- AllSkipTz
    intro hall
    rw [hrest] at hall
    rw [htzq]
    exact foldTz_allskip _ hall
  · -- NeedBound
    intro hne2
    rw [hrest] at hne2
    obtain ⟨hvlt, hvbound⟩ := hnb hne
    refine ⟨by rw [hvalidq]; exact hvlt, ?_⟩
    rw [hvalidq, hmax, htzq]
    set F := s.lastValidExtensionType with hFdef
    obtain ⟨hbcF, htzF, _, _, hkminF⟩ := henv F hvlt
    by_cases hallskip : ∀ pv ∈ s.pendingValues.drop c, pv.skip = true
    · have htz0 : (foldTz (s.pendingValues.drop c)).get F = 0 := by
        rw [foldTz_allskip _ hallskip]
        exact zero_quad_get F
      have hmaxle : (foldMaxBits (s.pendingValues.drop c)).get F ≤
          kMinDataBits.get F := by
        apply foldMaxBits_le
        · exact Nat.le_refl _
        · intro pv hm
          rcases hpwf pv (hsubset pv hm) with hskip | ⟨hs, _, _⟩
          · rw [hskip, skipPV_bitCount_get]
            omega
          · rw [hallskip pv hm] at hs
            exact absurd hs (by decide)
      obtain ⟨hk4, hb4⟩ := kMin_family_bound F hvlt
      omega
    · push_neg at hallskip
      obtain ⟨pv0, hm0, hs0⟩ := hallskip
      have hs0f : pv0.skip = false := by
        cases hsk : pv0.skip with
        | true => exact absurd hsk hs0
        | false => rfl
      have hmaxle : (foldMaxBits (s.pendingValues.drop c)).get F ≤
          s.currMaxBitLen.get F := by
        apply foldMaxBits_le
        · exact hkminF
        · intro pv hm
          exact hbcF pv (hsubset pv hm)
      have htzge : s.currTrailingZerosCount.get F ≤
          (foldTz (s.pendingValues.drop c)).get F := by
        apply foldTz_ge F _ _ (fun pv hm hs => htzF pv (hsubset pv hm) hs)
          pv0 hm0 hs0f
      omega
  · -- LastWF
    unfold LastWF
    rw [hlast]
    have htne : s.pendingValues.take c ≠ [] := by
      have h1 : 0 < (s.pendingValues.take c).length := by
        rw [List.length_take]
        omega
      exact List.length_pos.mp h1
    obtain ⟨x, hx, hxm⟩ := getLast?_some_of_ne_nil _ htne
    rw [hx]
    have hxp : x ∈ s.pendingValues := List.take_subset c s.pendingValues hxm
    rcases hpwf x hxp with hskip | ⟨_, _, hst⟩
    · left
      rw [hskip]
      rfl
    · right
      exact hst
  · -- RleWF
    intro hpos
    rw [hrleq, hrle] at hpos
    omega
  · rw [hrest, List.length_drop]
    omega

theorem pending_slot_conditions (s : BuilderState) (hg : GOOD s) (f : Nat)
    (hf : f < 3) (d : Nat)
    (hdneed : s.currMaxBitLen.get f - s.currTrailingZerosCount.get f ≤ d) :
    ∀ pv ∈ s.pendingValues, pv = skipPendingValue ∨
      (pv.skip = false ∧ pv.val < 2 ^ 128 ∧
        storedBits (pv.val / 2 ^ s.currTrailingZerosCount.get f) ≤ d ∧
        2 ^ s.currTrailingZerosCount.get f ∣ pv.val ∧
        countMultiplierFor f ∣ s.currTrailingZerosCount.get f ∧
        s.currTrailingZerosCount.get f / countMultiplierFor f <
          2 ^ countBitsFor f ∧
        (f = 0 → s.currTrailingZerosCount.get f = 0)) := by
  obtain ⟨henv, hpwf, _, _, _, _, _⟩ := hg
  obtain ⟨hbc, htz, hdvdm, hcap, hkmin⟩ := henv f hf
  intro pv hm
  rcases hpwf pv hm with hskip | ⟨hsk, heq, hst⟩
  · exact Or.inl hskip
  · right
    have hv128 : pv.val < 2 ^ 128 := storable_lt_two_pow hst
    have htzg : pv.trailingZerosCount.get f = tzStored f pv.val := by
      rw [heq]
      exact makePV_tz_get f pv.val hf
    have hbcg : pv.bitCount.get f = bitCountFor f pv.val := by
      rw [heq]
      exact makePV_bitCount_get f pv.val hf
    have ht1 : s.currTrailingZerosCount.get f ≤ tzStored f pv.val := by
      rw [← htzg]
      exact htz pv hm hsk
    have htztot : tzStored f pv.val ≤ trailingZeroCount pv.val :=
      tzStored_le_trailingZeroCount f pv.val
    have hd2 : 2 ^ tzStored f pv.val ∣ pv.val := two_pow_dvd_of_le_tz htztot
    have hdvS : 2 ^ s.currTrailingZerosCount.get f ∣ pv.val :=
      two_pow_dvd_of_le_tz (le_trans ht1 htztot)
    have h3 := storedBits_div_le hv128 hd2 ht1
    have hbcle : bitCountFor f pv.val ≤ s.currMaxBitLen.get f := by
      rw [← hbcg]
      exact hbc pv hm
    have hkey : storedBits (pv.val / 2 ^ s.currTrailingZerosCount.get f) ≤
        d := by
      rw [bitCountFor_eq] at hbcle
      omega
    refine ⟨hsk, hv128, hkey, hdvS, hdvdm, div_lt_pow_of_le_cap hcap, ?_⟩
    intro hf0
    subst hf0
    have h0 : (0 : Nat) ∣ s.currTrailingZerosCount.get 0 := hdvdm
    exact Nat.eq_zero_of_zero_dvd h0

theorem emitWord_decode (s : BuilderState) (f : Nat) (hf : f < 3)
    (hg : GOOD s) (hne : s.pendingValues ≠ [])
    (hbound : s.currMaxBitLen.get f - s.currTrailingZerosCount.get f ≤
      64 - selectorOverheadBits f - countBitsFor f) :
    ∃ taken, taken ≠ [] ∧
      s.pendingValues = taken ++ (emitWord s f).1.pendingValues ∧
      ∀ rest2, decodeWordsFrom ((emitWord s f).2 :: rest2)
          (pvOpt s.lastValueInPrevWord) =
        taken.map pvOpt ++
          decodeWordsFrom rest2
            (pvOpt (emitWord s f).1.lastValueInPrevWord) := by
  have hlpos : 0 < s.pendingValues.length := List.length_pos.mpr hne
  obtain ⟨hmem, hcle, hdneed⟩ := findLayout_facts f
    (s.currMaxBitLen.get f - s.currTrailingZerosCount.get f)
    s.pendingValues.length hf (by omega) hbound
  set lay := findLayout f
    (s.currMaxBitLen.get f - s.currTrailingZerosCount.get f)
    s.pendingValues.length with hlaydef
  have hw : (emitWord s f).2 = packWord f
      (if f = 1 then 7 else if f = 2 then 8 else lay.1)
      (if f = 1 ∨ f = 2 then lay.1 else 0) lay.2.1
      (s.currTrailingZerosCount.get f)
      (s.pendingValues.take lay.2.2) := rfl
  have hrest : (emitWord s f).1.pendingValues =
    s.pendingValues.drop lay.2.2 := rfl
  have hlast : (emitWord s f).1.lastValueInPrevWord =
    ((s.pendingValues.take lay.2.2).getLast?).getD s.lastValueInPrevWord :=
    rfl
  set taken := s.pendingValues.take lay.2.2 with htakendef
  have htl : taken.length = lay.2.2 := by
    rw [htakendef, List.length_take]
    omega
  have htne : taken ≠ [] := by
    have hcpos : 1 ≤ lay.2.2 := findLayout_count_pos f _ _
    have h1 : 0 < taken.length := by omega
    exact List.length_pos.mp h1
  have hall0 := pending_slot_conditions s hg f hf lay.2.1 hdneed
  have hall : ∀ pv ∈ taken, pv = skipPendingValue ∨
      (pv.skip = false ∧ pv.val < 2 ^ 128 ∧
        storedBits (pv.val / 2 ^ s.currTrailingZerosCount.get f) ≤ lay.2.1 ∧
        2 ^ s.currTrailingZerosCount.get f ∣ pv.val ∧
        countMultiplierFor f ∣ s.currTrailingZerosCount.get f ∧
        s.currTrailingZerosCount.get f / countMultiplierFor f <
          2 ^ countBitsFor f ∧
        (f = 0 → s.currTrailingZerosCount.get f = 0)) :=
    fun pv hm => hall0 pv (List.take_subset _ _ hm)
  have hdecode : decodeWord (pvOpt s.lastValueInPrevWord) (emitWord s f).2 =
      some (taken.map pvOpt) := by
    rw [hw]
    interval_cases f
    · exact decodeWord_packWord_base lay.1 lay.2.1 lay.2.2 hmem
        (s.currTrailingZerosCount.get 0) taken htl hall _
    · exact decodeWord_packWord_ext 1 (Or.inl rfl) lay.1 lay.2.1 lay.2.2 hmem
        (s.currTrailingZerosCount.get 1) taken htl hall _
    · exact decodeWord_packWord_ext 2 (Or.inr rfl) lay.1 lay.2.1 lay.2.2 hmem
        (s.currTrailingZerosCount.get 2) taken htl hall _
  refine ⟨taken, htne, by rw [hrest, htakendef]; exact
    (List.take_append_drop _ _).symm, ?_⟩
  intro rest2
  show (match decodeWord (pvOpt s.lastValueInPrevWord) (emitWord s f).2 with
    | none => []
    | some vs => vs ++ decodeWordsFrom rest2 ((vs.getLast?).getD
        (pvOpt s.lastValueInPrevWord))) =
    taken.map pvOpt ++ decodeWordsFrom rest2
      (pvOpt (emitWord s f).1.lastValueInPrevWord)
  rw [hdecode]
  dsimp only
  congr 2
  rw [getLast?_map_pvOpt taken]
  obtain ⟨x, hx, hxm⟩ := getLast?_some_of_ne_nil taken htne
  rw [hx, hlast, hx]
  rfl

theorem stateVals_rle_zero (s : BuilderState) (h : s.rleCount = 0) :
    stateVals s = s.pendingValues.map pvOpt := by
  unfold stateVals
  rw [h]
  rfl

theorem doesFit_ok (s : BuilderState) (pv : PendingValue)
    (hok : (doesIntegerFitInCurrentWord s pv).ok = true) :
    (doesIntegerFitInCurrentWord s pv).ext < 3 ∧
    fitsFamily s pv (doesIntegerFitInCurrentWord s pv).ext = true := by
  unfold doesIntegerFitInCurrentWord at hok ⊢
  dsimp only at hok ⊢
  by_cases h0 : (s.isSelectorPossible.b && fitsFamily s pv 0) = true
  · rw [if_pos h0]
    simp only [Bool.and_eq_true] at h0
    exact ⟨show (0 : Nat) < 3 by omega, h0.2⟩
  · rw [if_neg h0]
    rw [if_neg h0] at hok
    by_cases h1 : (s.isSelectorPossible.e7 && fitsFamily s pv 1) = true
    · rw [if_pos h1]
      simp only [Bool.and_eq_true] at h1
      exact ⟨show (1 : Nat) < 3 by omega, h1.2⟩
    · rw [if_neg h1]
      rw [if_neg h1] at hok
      by_cases h2 : (s.isSelectorPossible.e8 && fitsFamily s pv 2) = true
      · rw [if_pos h2]
        simp only [Bool.and_eq_true] at h2
        exact ⟨show (2 : Nat) < 3 by omega, h2.2⟩
      · rw [if_neg h2] at hok
        dsimp only at hok
        exact absurd hok (by decide)

theorem doesFit_empty (s : BuilderState) (pv : PendingValue)
    (hemp : s.pendingValues = []) (hmaxr : s.currMaxBitLen = kMinDataBits)
    (htzr : s.currTrailingZerosCount = ⟨0, 0, 0, 0⟩)
    (hflr : s.isSelectorPossible = ⟨true, true, true, true⟩)
    (hpv : PvWF pv) (hnw : tooWideValue pv = false) :
    (doesIntegerFitInCurrentWord s pv).ok = true := by
  have hfit : ∀ f, fitsFamily s pv f = fitsEmptyFamily pv f := by
    intro f
    unfold fitsFamily fitsEmptyFamily slotBitsFit sharedTzFit
    rw [hemp, hmaxr, htzr]
    rcases hpv with hskip | ⟨hsk, _, _⟩
    · rw [hskip]
      rw [if_pos (show skipPendingValue.skip = true from rfl)]
      simp only [List.length_nil, Nat.zero_add, Nat.one_mul]
      rfl
    · rw [hsk]
      rw [if_neg (show ¬ (false = true) by decide)]
      rw [if_pos (show ([] : List PendingValue) = [] from rfl)]
      simp only [List.length_nil, Nat.zero_add, Nat.one_mul]
  unfold tooWideValue at hnw
  unfold doesIntegerFitInCurrentWord
  rw [hflr]
  cases h0 : fitsEmptyFamily pv 0 with
  | true =>
    rw [if_pos (by rw [hfit 0, h0]; rfl)]
  | false =>
    rw [if_neg (by rw [hfit 0, h0]; decide)]
    cases h1 : fitsEmptyFamily pv 1 with
    | true =>
      rw [if_pos (by rw [hfit 1, h1]; rfl)]
    | false =>
      rw [if_neg (by rw [hfit 1, h1]; decide)]
      cases h2 : fitsEmptyFamily pv 2 with
      | true =>
        rw [if_pos (by rw [hfit 2, h2]; rfl)]
      | false =>
        rw [h0, h1, h2] at hnw
        exact absurd hnw (by decide)

theorem pushPending_tz_get (s : BuilderState) (pv : PendingValue)
    (res : FitResult) (f : Nat) :
    (pushPending s pv res).currTrailingZerosCount.get f =
      sharedTzFit s pv f := by
  unfold pushPending sharedTzFit
  dsimp only
  by_cases h1 : pv.skip = true
  · rw [if_pos h1, if_pos h1]
  · rw [if_neg h1, if_neg h1]
    by_cases h2 : s.pendingValues = []
    · rw [if_pos h2, if_pos h2]
    · rw [if_neg h2, if_neg h2]
      exact quadMin_get _ _ f

theorem pushPending_sim (s : BuilderState) (pv : PendingValue)
    (hg : GOOD s) (hrle : s.rleCount = 0) (hpv : PvWF pv)
    (hok : (doesIntegerFitInCurrentWord s pv).ok = true) :
    GOOD (pushPending s pv (doesIntegerFitInCurrentWord s pv)) ∧
    (pushPending s pv (doesIntegerFitInCurrentWord s pv)).rleCount =
      s.rleCount ∧
    (pushPending s pv (doesIntegerFitInCurrentWord s pv)).lastValueInPrevWord =
      s.lastValueInPrevWord ∧
    (pushPending s pv (doesIntegerFitInCurrentWord s pv)).pendingValues =
      s.pendingValues ++ [pv] := by
  obtain ⟨henv, hpwf, her, hast, hnb, hlw, hrw⟩ := hg
  obtain ⟨hext3, hfitres⟩ := doesFit_ok s pv hok
  set res := doesIntegerFitInCurrentWord s pv with hresdef
  have hpend : (pushPending s pv res).pendingValues =
    s.pendingValues ++ [pv] := rfl
  have hmax : (pushPending s pv res).currMaxBitLen =
    quadMax s.currMaxBitLen pv.bitCount := rfl
  have hrleq : (pushPending s pv res).rleCount = s.rleCount := rfl
  have hlastq : (pushPending s pv res).lastValueInPrevWord =
    s.lastValueInPrevWord := rfl
  have hvalid : (pushPending s pv res).lastValidExtensionType = res.ext := rfl
  have hmemnew : pv ∈ s.pendingValues ++ [pv] :=
    List.mem_append_right _ (List.mem_singleton_self pv)
  refine ⟨⟨?_, ?_, ?_, ?_, ?_, ?_, ?_⟩, hrleq, hlastq, hpend⟩
  · -- EnvOK
    intro f2 hf2
    obtain ⟨hbc, htz, hdvdm, hcap, hkmin⟩ := henv f2 hf2
    rw [hmax, hpend]
    refine ⟨?_, ?_, ?_, ?_, ?_⟩
    · intro pv2 hm
      rw [quadMax_get]
      rcases List.mem_append.mp hm with h | h
      · exact le_trans (hbc pv2 h) (le_max_left _ _)
      · rw [List.mem_singleton.mp h]
        exact le_max_right _ _
    · intro pv2 hm hs2
      rw [pushPending_tz_get]
      unfold sharedTzFit
      by_cases h1 : pv.skip = true
      · rw [if_pos h1]
        rcases List.mem_append.mp hm with h | h
        · exact htz pv2 h hs2
        · rw [List.mem_singleton.mp h] at hs2
          rw [h1] at hs2
          exact absurd hs2 (by decide)
      · rw [if_neg h1]
        by_cases h2 : s.pendingValues = []
        · rw [if_pos h2]
          rcases List.mem_append.mp hm with h | h
          · rw [h2] at h
            exact absurd h (List.not_mem_nil pv2)
          · rw [List.mem_singleton.mp h]
        · rw [if_neg h2]
          rcases List.mem_append.mp hm with h | h
          · exact le_trans (min_le_left _ _) (htz pv2 h hs2)
          · rw [List.mem_singleton.mp h]
            exact min_le_right _ _
    · rw [pushPending_tz_get]
      unfold sharedTzFit
      by_cases h1 : pv.skip = true
      · rw [if_pos h1]
        exact hdvdm
      · rw [if_neg h1]
        have hmk : pv.trailingZerosCount.get f2 = tzStored f2 pv.val := by
          rcases hpv with hskip | ⟨_, heq, _⟩
          · rw [hskip] at h1
            exact absurd rfl h1
          · rw [heq]
            exact makePV_tz_get f2 pv.val hf2
        by_cases h2 : s.pendingValues = []
        · rw [if_pos h2, hmk]
          exact countMultiplierFor_dvd_tzStored f2 pv.val
        · rw [if_neg h2]
          rcases min_choice (s.currTrailingZerosCount.get f2)
            (pv.trailingZerosCount.get f2) with h | h
          · rw [h]
            exact hdvdm
          · rw [h, hmk]
            exact countMultiplierFor_dvd_tzStored f2 pv.val
    · rw [pushPending_tz_get]
      unfold sharedTzFit
      by_cases h1 : pv.skip = true
      · rw [if_pos h1]
        exact hcap
      · rw [if_neg h1]
        have hmk : pv.trailingZerosCount.get f2 = tzStored f2 pv.val := by
          rcases hpv with hskip | ⟨_, heq, _⟩
          · rw [hskip] at h1
            exact absurd rfl h1
          · rw [heq]
            exact makePV_tz_get f2 pv.val hf2
        by_cases h2 : s.pendingValues = []
        · rw [if_pos h2, hmk]
          exact tzStored_le_cap f2 pv.val
        · rw [if_neg h2]
          exact le_trans (min_le_left _ _) hcap
    · rw [quadMax_get]
      exact le_trans hkmin (le_max_left _ _)
  · -- PendingWF
    intro pv2 hm
    rw [hpend] at hm
    rcases List.mem_append.mp hm with h | h
    · exact hpwf pv2 h
    · rw [List.mem_singleton.mp h]
      exact hpv
  · -- EmptyReset
    intro hnil
    rw [hpend] at hnil
    exact absurd hnil (by simp)
  · -- AllSkipTz
    intro hall
    rw [hpend] at hall
    have hvskip : pv.skip = true := hall pv hmemnew
    have htzold : (pushPending s pv res).currTrailingZerosCount =
        s.currTrailingZerosCount := by
      unfold pushPending
      dsimp only
      rw [if_pos hvskip]
    rw [htzold]
    exact hast (fun pv2 hm2 => hall pv2 (List.mem_append_left _ hm2))
  · -- NeedBound
    intro _
    refine ⟨by rw [hvalid]; exact hext3, ?_⟩
    have hfit2 : (s.pendingValues.length + 1) * slotBitsFit s pv res.ext ≤
        64 - selectorOverheadBits res.ext := of_decide_eq_true hfitres
    have hchain : slotBitsFit s pv res.ext ≤
        (s.pendingValues.length + 1) * slotBitsFit s pv res.ext :=
      Nat.le_mul_of_pos_left _ (by omega)
    unfold slotBitsFit at hfit2 hchain
    rw [hvalid, hmax, quadMax_get, pushPending_tz_get]
    omega
  · -- LastWF
    unfold LastWF
    rw [hlastq]
    exact hlw
  · -- RleWF
    intro hpos
    rw [hrleq, hrle] at hpos
    omega

theorem pvWF_not_tooWide (pv : PendingValue) (hpv : PvWF pv) :
    tooWideValue pv = false := by
  rcases hpv with hskip | ⟨_, heq, hst⟩
  · rw [hskip]
    decide
  · rw [heq]
    exact hst

theorem appendPendingFuel_sim :
    ∀ (fuel : Nat) (s : BuilderState) (pv : PendingValue) (tryRle : Bool),
      s.pendingValues.length < fuel → GOOD s → s.rleCount = 0 → PvWF pv →
      (appendPendingFuel tryRle fuel s pv).1 = true ∧
      GOOD (appendPendingFuel tryRle fuel s pv).2.1 ∧
      ∃ D, (∀ rest,
          decodeWordsFrom ((appendPendingFuel tryRle fuel s pv).2.2 ++ rest)
            (pvOpt s.lastValueInPrevWord) =
          D ++ decodeWordsFrom rest
            (pvOpt (appendPendingFuel tryRle fuel s pv).2.1.lastValueInPrevWord)) ∧
        stateVals s ++ [pvOpt pv] =
          D ++ stateVals (appendPendingFuel tryRle fuel s pv).2.1 := by
  intro fuel
  induction fuel with
  | zero => intro s pv tryRle hlen; omega
  | succ n ih =>
    intro s pv tryRle hlen hg hrle hpv
    by_cases hg1 : (tryRle && s.pendingValues.isEmpty && !pv.skip &&
        !s.lastValueInPrevWord.skip &&
        (pv.val == s.lastValueInPrevWord.val)) = true
    · have hres : appendPendingFuel tryRle (n + 1) s pv =
          (true, { s with rleCount := s.rleCount + 1 }, []) := by
        unfold appendPendingFuel
        rw [if_pos hg1]
      rw [hres]
      simp only [Bool.and_eq_true] at hg1
      obtain ⟨⟨⟨⟨htry, hemp⟩, hnskip⟩, hnlast⟩, hbeq⟩ := hg1
      have hempl : s.pendingValues = [] := List.isEmpty_iff.mp hemp
      have hskf : pv.skip = false := by
        cases h : pv.skip with
        | true => rw [h] at hnskip; exact absurd hnskip (by decide)
        | false => rfl
      have hlskf : s.lastValueInPrevWord.skip = false := by
        cases h : s.lastValueInPrevWord.skip with
        | true => rw [h] at hnlast; exact absurd hnlast (by decide)
        | false => rfl
      have hveq : pv.val = s.lastValueInPrevWord.val := by simpa using hbeq
      obtain ⟨henv, hpwf, her, hast, hnb, hlw, hrw⟩ := hg
      refine ⟨rfl, ⟨henv, hpwf, her, hast, hnb, hlw, ?_⟩, [], ?_, ?_⟩
      · intro _
        exact ⟨hempl, hlskf⟩
      · intro rest
        simp only [List.nil_append]
      · rw [stateVals_rle_zero s hrle, hempl]
        simp only [List.map_nil, List.nil_append]
        have hpv1 : [pvOpt pv] = [some s.lastValueInPrevWord.val] := by
          unfold pvOpt
          rw [hskf]
          rw [if_neg (show ¬ (false = true) by decide), hveq]
        rw [hpv1]
        unfold stateVals
        dsimp only
        rw [hrle]
        rfl
    · by_cases hg2 : (doesIntegerFitInCurrentWord s pv).ok = true
      · have hres : appendPendingFuel tryRle (n + 1) s pv =
            (true, pushPending s pv (doesIntegerFitInCurrentWord s pv), []) := by
          unfold appendPendingFuel
          rw [if_neg hg1]
          dsimp only
          rw [if_pos hg2]
        rw [hres]
        obtain ⟨hgood2, hrle2, hlast2, hpend2⟩ :=
          pushPending_sim s pv hg hrle hpv hg2
        refine ⟨rfl, hgood2, [], ?_, ?_⟩
        · intro rest
          show decodeWordsFrom rest (pvOpt s.lastValueInPrevWord) =
            [] ++ decodeWordsFrom rest
              (pvOpt (pushPending s pv
                (doesIntegerFitInCurrentWord s pv)).lastValueInPrevWord)
          rw [hlast2, List.nil_append]
        · rw [stateVals_rle_zero s hrle,
            stateVals_rle_zero _ (by rw [hrle2]; exact hrle), hpend2,
            List.map_append, List.nil_append]
          rfl
      · by_cases hg3 : s.pendingValues = []
        · exfalso
          obtain ⟨hmaxr, htzr, hflr⟩ := hg.2.2.1 hg3
          exact hg2 (doesFit_empty s pv hg3 hmaxr htzr hflr hpv
            (pvWF_not_tooWide pv hpv))
        · have hres : appendPendingFuel tryRle (n + 1) s pv =
              ((appendPendingFuel tryRle n
                  (emitWord s s.lastValidExtensionType).1 pv).1,
               (appendPendingFuel tryRle n
                  (emitWord s s.lastValidExtensionType).1 pv).2.1,
               (emitWord s s.lastValidExtensionType).2 ::
                 (appendPendingFuel tryRle n
                    (emitWord s s.lastValidExtensionType).1 pv).2.2) := by
            simp only [appendPendingFuel]
            rw [if_neg hg1]
            rw [if_neg hg2, if_neg hg3]
          obtain ⟨hf3, hbound⟩ := hg.2.2.2.2.1 hg3
          obtain ⟨hgood1, hrle1, _, hlen1⟩ :=
            emitWord_state s s.lastValidExtensionType hg hg3 hrle
          obtain ⟨taken, htne, hsplit, hdec⟩ :=
            emitWord_decode s s.lastValidExtensionType hf3 hg hg3 hbound
          obtain ⟨hok2, hgood2, D2, hthread2, hvals2⟩ :=
            ih (emitWord s s.lastValidExtensionType).1 pv tryRle
              (by omega) hgood1 hrle1 hpv
          rw [hres]
          refine ⟨hok2, hgood2, taken.map pvOpt ++ D2, ?_, ?_⟩
          · intro rest
            show decodeWordsFrom ((emitWord s s.lastValidExtensionType).2 ::
                ((appendPendingFuel tryRle n
                  (emitWord s s.lastValidExtensionType).1 pv).2.2 ++ rest))
                (pvOpt s.lastValueInPrevWord) = _
            rw [hdec]
            rw [hthread2 rest]
            rw [List.append_assoc]
          · rw [stateVals_rle_zero s hrle, hsplit, List.map_append]
            rw [← stateVals_rle_zero _ hrle1]
            rw [List.append_assoc, hvals2, List.append_assoc]

theorem getLast?_replicate_succ (k : Nat) (x : Option Nat) :
    (List.replicate (k + 1) x).getLast? = some x := by
  induction k with
  | zero => rfl
  | succ m ih =>
    show (x :: x :: List.replicate m x).getLast? = some x
    rw [List.getLast?_cons_cons]
    exact ih

theorem decodeWord_rle1 (dlast : Option Nat) :
    decodeWord dlast 1 = some (List.replicate 120 dlast) := rfl

theorem decodeWord_rle2 (dlast : Option Nat) :
    decodeWord dlast 2 = some (List.replicate 240 dlast) := rfl

theorem decodeWordsFrom_nil (dlast : Option Nat) :
    decodeWordsFrom [] dlast = [] := rfl

theorem decodeWordsFrom_rle1 (dlast : Option Nat) (rest : List Nat) :
    decodeWordsFrom (1 :: rest) dlast =
      List.replicate 120 dlast ++ decodeWordsFrom rest dlast := by
  simp only [decodeWordsFrom, decodeWord_rle1]
  rw [show (List.replicate 120 dlast).getLast? = some dlast from
    getLast?_replicate_succ 119 dlast]
  rfl

theorem decodeWordsFrom_rle2 (dlast : Option Nat) (rest : List Nat) :
    decodeWordsFrom (2 :: rest) dlast =
      List.replicate 240 dlast ++ decodeWordsFrom rest dlast := by
  simp only [decodeWordsFrom, decodeWord_rle2]
  rw [show (List.replicate 240 dlast).getLast? = some dlast from
    getLast?_replicate_succ 239 dlast]
  rfl

theorem rleWordsFuel_sim :
    ∀ (fuel n : Nat), n ≤ fuel →
      (rleWordsFuel fuel n).2 ≤ n ∧ (rleWordsFuel fuel n).2 < 120 ∧
      ∀ (dlast : Option Nat) (rest : List Nat),
        decodeWordsFrom ((rleWordsFuel fuel n).1 ++ rest) dlast =
          List.replicate (n - (rleWordsFuel fuel n).2) dlast ++
            decodeWordsFrom rest dlast := by
  intro fuel
  induction fuel with
  | zero =>
    intro n hn
    have h0 : n = 0 := Nat.le_zero.mp hn
    subst h0
    refine ⟨Nat.le_refl 0, by decide, ?_⟩
    intro dlast rest
    rfl
  | succ m ih =>
    intro n hn
    by_cases h240 : 240 ≤ n
    · have hres : rleWordsFuel (m + 1) n =
          (2 :: (rleWordsFuel m (n - 240)).1, (rleWordsFuel m (n - 240)).2) := by
        simp only [rleWordsFuel]
        rw [if_pos h240]
      obtain ⟨h1, h2, h3⟩ := ih (n - 240) (by omega)
      rw [hres]
      refine ⟨by omega, h2, ?_⟩
      intro dlast rest
      dsimp only
      rw [List.cons_append, decodeWordsFrom_rle2, h3 dlast rest]
      rw [← List.append_assoc, ← List.replicate_add]
      have harith : 240 + (n - 240 - (rleWordsFuel m (n - 240)).2) =
          n - (rleWordsFuel m (n - 240)).2 := by omega
      rw [harith]
    · by_cases h120 : 120 ≤ n
      · have hres : rleWordsFuel (m + 1) n = ([1], n - 120) := by
          unfold rleWordsFuel
          rw [if_neg h240, if_pos h120]
        rw [hres]
        refine ⟨by omega, by omega, ?_⟩
        intro dlast rest
        dsimp only
        rw [show ([1] : List Nat) ++ rest = 1 :: rest from rfl]
        rw [decodeWordsFrom_rle1]
        rw [show n - (n - 120) = 120 by omega]
      · have hres : rleWordsFuel (m + 1) n = ([], n) := by
          unfold rleWordsFuel
          rw [if_neg h240, if_neg h120]
        rw [hres]
        refine ⟨Nat.le_refl n, by omega, ?_⟩
        intro dlast rest
        simp

theorem appendSameFuel_sim :
    ∀ (r : Nat) (s : BuilderState) (v : Nat), GOOD s → s.rleCount = 0 →
      Storable v →
      GOOD (appendSameFuel r s v).1 ∧ (appendSameFuel r s v).1.rleCount = 0 ∧
      ∃ D, (∀ rest,
          decodeWordsFrom ((appendSameFuel r s v).2 ++ rest)
            (pvOpt s.lastValueInPrevWord) =
          D ++ decodeWordsFrom rest
            (pvOpt (appendSameFuel r s v).1.lastValueInPrevWord)) ∧
        stateVals s ++ List.replicate r (some v) =
          D ++ stateVals (appendSameFuel r s v).1 := by
  intro r
  induction r with
  | zero =>
    intro s v hg hrle _
    refine ⟨hg, hrle, [], fun rest => rfl, ?_⟩
    show stateVals s ++ List.replicate 0 (some v) = [] ++ stateVals s
    simp
  | succ k ih =>
    intro s v hg hrle hst
    have hpwf : PvWF (makePendingValue v) := Or.inr ⟨rfl, rfl, hst⟩
    obtain ⟨hok1, hg1, D1, hthread1, hvals1⟩ :=
      appendPendingFuel_sim (s.pendingValues.length + 1) s (makePendingValue v)
        false (by omega) hg hrle hpwf
    have hrle1 : (appendPendingFuel false (s.pendingValues.length + 1) s
        (makePendingValue v)).2.1.rleCount = 0 := by
      rw [appendPendingFuel_rleCount_no_tryRle]
      exact hrle
    obtain ⟨hg2, hrle2, D2, hthread2, hvals2⟩ :=
      ih (appendPendingFuel false (s.pendingValues.length + 1) s
        (makePendingValue v)).2.1 v hg1 hrle1 hst
    have hres : appendSameFuel (k + 1) s v =
        ((appendSameFuel k (appendPendingFuel false
            (s.pendingValues.length + 1) s (makePendingValue v)).2.1 v).1,
          (appendPendingFuel false (s.pendingValues.length + 1) s
            (makePendingValue v)).2.2 ++
          (appendSameFuel k (appendPendingFuel false
            (s.pendingValues.length + 1) s (makePendingValue v)).2.1 v).2) :=
      rfl
    rw [hres]
    dsimp only
    refine ⟨hg2, hrle2, D1 ++ D2, ?_, ?_⟩
    · intro rest
      rw [List.append_assoc, hthread1, hthread2, ← List.append_assoc]
    · have hpv : pvOpt (makePendingValue v) = some v := rfl
      rw [hpv] at hvals1
      rw [List.replicate_succ]
      rw [show stateVals s ++ (some v :: List.replicate k (some v)) =
          (stateVals s ++ [some v]) ++ List.replicate k (some v) by simp]
      rw [hvals1, List.append_assoc, hvals2, ← List.append_assoc]

theorem handleRleTermination_sim (s : BuilderState) (hg : GOOD s) :
    GOOD (handleRleTermination s).1 ∧
    (handleRleTermination s).1.rleCount = 0 ∧
    ∃ D, (∀ rest,
        decodeWordsFrom ((handleRleTermination s).2 ++ rest)
          (pvOpt s.lastValueInPrevWord) =
        D ++ decodeWordsFrom rest
          (pvOpt (handleRleTermination s).1.lastValueInPrevWord)) ∧
      stateVals s = D ++ stateVals (handleRleTermination s).1 := by
  by_cases h0 : s.rleCount = 0
  · have hres : handleRleTermination s = (s, []) := by
      unfold handleRleTermination
      rw [if_pos h0]
    rw [hres]
    exact ⟨hg, h0, [], fun rest => rfl, by simp⟩
  · obtain ⟨henv, hpwf, her, hast, hnb, hlw, hrw⟩ := hg
    obtain ⟨hpe, hns⟩ := hrw (Nat.pos_of_ne_zero h0)
    have hst : Storable s.lastValueInPrevWord.val := by
      cases hlw with
      | inl h => rw [h] at hns; exact absurd hns (by decide)
      | inr h => exact h
    have hg1 : GOOD { s with rleCount := 0 } :=
      ⟨henv, hpwf, her, hast, hnb, hlw, fun h => absurd h (Nat.lt_irrefl 0)⟩
    have hrle1 : ({ s with rleCount := 0 } : BuilderState).rleCount = 0 := rfl
    obtain ⟨hr1, hr2, hrdec⟩ :=
      rleWordsFuel_sim s.rleCount s.rleCount (Nat.le_refl _)
    obtain ⟨hg2, hrle2, D2, hthread2, hvals2⟩ :=
      appendSameFuel_sim (rleWordsFuel s.rleCount s.rleCount).2
        { s with rleCount := 0 } s.lastValueInPrevWord.val hg1 hrle1 hst
    have hres : handleRleTermination s =
        ((appendSameFuel (rleWordsFuel s.rleCount s.rleCount).2
            { s with rleCount := 0 } s.lastValueInPrevWord.val).1,
          (rleWordsFuel s.rleCount s.rleCount).1 ++
          (appendSameFuel (rleWordsFuel s.rleCount s.rleCount).2
            { s with rleCount := 0 } s.lastValueInPrevWord.val).2) := by
      unfold handleRleTermination
      rw [if_neg h0]
    rw [hres]
    dsimp only
    have hplast : pvOpt s.lastValueInPrevWord =
        some s.lastValueInPrevWord.val := by
      simp [pvOpt, hns]
    have hplast1 :
        pvOpt ({ s with rleCount := 0 } : BuilderState).lastValueInPrevWord =
        some s.lastValueInPrevWord.val := hplast
    rw [hplast1] at hthread2
    have hsv1 : stateVals ({ s with rleCount := 0 } : BuilderState) =
        List.replicate 0 (some s.lastValueInPrevWord.val) ++
          s.pendingValues.map pvOpt := rfl
    rw [hsv1, hpe] at hvals2
    simp only [List.replicate, List.map_nil, List.nil_append,
      List.append_nil] at hvals2
    refine ⟨hg2, hrle2,
      List.replicate (s.rleCount - (rleWordsFuel s.rleCount s.rleCount).2)
          (some s.lastValueInPrevWord.val) ++ D2, ?_, ?_⟩
    · intro rest
      rw [List.append_assoc, hplast]
      rw [hrdec (some s.lastValueInPrevWord.val)]
      rw [hthread2 rest]
      rw [← List.append_assoc]
    · have hsv : stateVals s =
          List.replicate s.rleCount (some s.lastValueInPrevWord.val) := by
        unfold stateVals
        rw [hpe]
        simp
      have hrep : List.replicate s.rleCount
            (some s.lastValueInPrevWord.val) =
          List.replicate (s.rleCount - (rleWordsFuel s.rleCount s.rleCount).2)
            (some s.lastValueInPrevWord.val) ++
          List.replicate (rleWordsFuel s.rleCount s.rleCount).2
            (some s.lastValueInPrevWord.val) := by
        rw [← List.replicate_add]
        have harith : s.rleCount - (rleWordsFuel s.rleCount s.rleCount).2 +
            (rleWordsFuel s.rleCount s.rleCount).2 = s.rleCount := by omega
        rw [harith]
      rw [hsv, hrep, hvals2, List.append_assoc, hpe]

theorem drainFuel_sim :
    ∀ (fuel : Nat) (s : BuilderState), s.pendingValues.length < fuel →
      GOOD s → s.rleCount = 0 →
      GOOD (drainFuel fuel s).1 ∧ (drainFuel fuel s).1.rleCount = 0 ∧
      (drainFuel fuel s).1.pendingValues = [] ∧
      ∀ rest, decodeWordsFrom ((drainFuel fuel s).2 ++ rest)
          (pvOpt s.lastValueInPrevWord) =
        s.pendingValues.map pvOpt ++ decodeWordsFrom rest
          (pvOpt (drainFuel fuel s).1.lastValueInPrevWord) := by
  intro fuel
  induction fuel with
  | zero => intro s hlen; omega
  | succ m ih =>
    intro s hlen hg hrle
    by_cases hpe : s.pendingValues = []
    · have hres : drainFuel (m + 1) s = (s, []) := by
        unfold drainFuel
        rw [if_pos hpe]
      rw [hres]
      refine ⟨hg, hrle, hpe, ?_⟩
      intro rest
      rw [hpe]
      rfl
    · obtain ⟨hf3, hbound⟩ := hg.2.2.2.2.1 hpe
      obtain ⟨hg1, hrle1, hlv1, hlen1⟩ :=
        emitWord_state s s.lastValidExtensionType hg hpe hrle
      obtain ⟨taken, htne, htk, hdec⟩ :=
        emitWord_decode s s.lastValidExtensionType hf3 hg hpe hbound
      obtain ⟨hg2, hrle2, hpe2, hthread2⟩ :=
        ih (emitWord s s.lastValidExtensionType).1 (by omega) hg1 hrle1
      have hres : drainFuel (m + 1) s =
          ((drainFuel m (emitWord s s.lastValidExtensionType).1).1,
            (emitWord s s.lastValidExtensionType).2 ::
            (drainFuel m (emitWord s s.lastValidExtensionType).1).2) := by
        simp only [drainFuel]
        rw [if_neg hpe]
      rw [hres]
      refine ⟨hg2, hrle2, hpe2, ?_⟩
      intro rest
      dsimp only
      rw [List.cons_append]
      rw [hdec]
      rw [hthread2 rest]
      rw [htk]
      rw [List.map_append, List.append_assoc]

theorem flushOp_sim (s : BuilderState) (hg : GOOD s) :
    GOOD (flushOp s).1 ∧ stateVals (flushOp s).1 = [] ∧
    ∀ rest, decodeWordsFrom ((flushOp s).2 ++ rest)
        (pvOpt s.lastValueInPrevWord) =
      stateVals s ++ decodeWordsFrom rest
        (pvOpt (flushOp s).1.lastValueInPrevWord) := by
  obtain ⟨hg1, hrle1, D1, hthread1, hvals1⟩ := handleRleTermination_sim s hg
  obtain ⟨hg2, hrle2, hpe2, hthread2⟩ := drainFuel_sim
    ((handleRleTermination s).1.pendingValues.length + 1)
    (handleRleTermination s).1 (by omega) hg1 hrle1
  have hres : flushOp s =
      ((drainFuel ((handleRleTermination s).1.pendingValues.length + 1)
          (handleRleTermination s).1).1,
        (handleRleTermination s).2 ++
        (drainFuel ((handleRleTermination s).1.pendingValues.length + 1)
          (handleRleTermination s).1).2) := rfl
  rw [hres]
  dsimp only
  refine ⟨hg2, ?_, ?_⟩
  · rw [stateVals_rle_zero _ hrle2, hpe2]
    rfl
  · intro rest
    rw [List.append_assoc, hthread1, hthread2 rest]
    rw [hvals1, stateVals_rle_zero _ hrle1, List.append_assoc]

theorem appendOp_sim (s : BuilderState) (v : Nat) (hg : GOOD s)
    (hst : Storable v) :
    (appendOp s v).1 = true ∧ GOOD (appendOp s v).2.1 ∧
    ∃ D, (∀ rest, decodeWordsFrom ((appendOp s v).2.2 ++ rest)
        (pvOpt s.lastValueInPrevWord) =
      D ++ decodeWordsFrom rest
        (pvOpt (appendOp s v).2.1.lastValueInPrevWord)) ∧
      stateVals s ++ [some v] = D ++ stateVals (appendOp s v).2.1 := by
  have hnw : tooWideValue (makePendingValue v) = false := hst
  by_cases hrb : (rlePossible s && !s.lastValueInPrevWord.skip &&
      (v == s.lastValueInPrevWord.val)) = true
  · have hres : appendOp s v =
        (true, { s with rleCount := s.rleCount + 1 }, []) := by
      unfold appendOp
      dsimp only
      rw [hnw]
      rw [if_neg Bool.false_ne_true]
      rw [if_pos hrb]
    rw [hres]
    simp only [Bool.and_eq_true] at hrb
    obtain ⟨⟨hposs, hnskip⟩, hbeq⟩ := hrb
    have hveq : v = s.lastValueInPrevWord.val := by simpa using hbeq
    have hns : s.lastValueInPrevWord.skip = false := by
      cases h : s.lastValueInPrevWord.skip with
      | false => rfl
      | true => rw [h] at hnskip; exact absurd hnskip (by decide)
    obtain ⟨henv, hpwf, her, hast, hnb, hlw, hrw⟩ := hg
    have hpe : s.pendingValues = [] := by
      unfold rlePossible at hposs
      simp only [Bool.or_eq_true] at hposs
      cases hposs with
      | inl h => exact List.isEmpty_iff.mp h
      | inr h =>
        have hne : s.rleCount ≠ 0 := by
          intro h0
          rw [h0] at h
          exact absurd h (by decide)
        exact (hrw (Nat.pos_of_ne_zero hne)).1
    refine ⟨rfl, ⟨henv, hpwf, her, hast, hnb, hlw, fun _ => ⟨hpe, hns⟩⟩, ?_⟩
    refine ⟨[], fun rest => rfl, ?_⟩
    have h1 : stateVals s =
        List.replicate s.rleCount (some s.lastValueInPrevWord.val) ++
          s.pendingValues.map pvOpt := rfl
    have h2 : stateVals ({ s with rleCount := s.rleCount + 1 } : BuilderState) =
        List.replicate (s.rleCount + 1) (some s.lastValueInPrevWord.val) ++
          s.pendingValues.map pvOpt := rfl
    rw [List.nil_append, h1, h2, hpe, hveq]
    simp only [List.map_nil, List.append_nil]
    rw [← List.replicate_succ', List.replicate_succ]
  · have hres : appendOp s v =
        ((appendPendingFuel true
            ((handleRleTermination s).1.pendingValues.length + 1)
            (handleRleTermination s).1 (makePendingValue v)).1,
          (appendPendingFuel true
            ((handleRleTermination s).1.pendingValues.length + 1)
            (handleRleTermination s).1 (makePendingValue v)).2.1,
          (handleRleTermination s).2 ++
          (appendPendingFuel true
            ((handleRleTermination s).1.pendingValues.length + 1)
            (handleRleTermination s).1 (makePendingValue v)).2.2) := by
      unfold appendOp
      dsimp only
      rw [hnw]
      rw [if_neg Bool.false_ne_true]
      rw [if_neg hrb]
    obtain ⟨hg1, hrle1, D1, hthread1, hvals1⟩ := handleRleTermination_sim s hg
    have hpwf : PvWF (makePendingValue v) := Or.inr ⟨rfl, rfl, hst⟩
    obtain ⟨hok2, hg2, D2, hthread2, hvals2⟩ := appendPendingFuel_sim
      ((handleRleTermination s).1.pendingValues.length + 1)
      (handleRleTermination s).1 (makePendingValue v) true (by omega) hg1
      hrle1 hpwf
    rw [hres]
    refine ⟨hok2, hg2, D1 ++ D2, ?_, ?_⟩
    · intro rest
      dsimp only
      rw [List.append_assoc, hthread1, hthread2, ← List.append_assoc]
    · dsimp only
      have hpv : pvOpt (makePendingValue v) = some v := rfl
      rw [hvals1, List.append_assoc, ← hpv, hvals2, ← List.append_assoc]

theorem skipOp_sim (s : BuilderState) (hg : GOOD s) :
    GOOD (skipOp s).1 ∧
    ∃ D, (∀ rest, decodeWordsFrom ((skipOp s).2 ++ rest)
        (pvOpt s.lastValueInPrevWord) =
      D ++ decodeWordsFrom rest
        (pvOpt (skipOp s).1.lastValueInPrevWord)) ∧
      stateVals s ++ [none] = D ++ stateVals (skipOp s).1 := by
  obtain ⟨hg1, hrle1, D1, hthread1, hvals1⟩ := handleRleTermination_sim s hg
  have hpwf : PvWF skipPendingValue := Or.inl rfl
  obtain ⟨hok2, hg2, D2, hthread2, hvals2⟩ := appendPendingFuel_sim
    ((handleRleTermination s).1.pendingValues.length + 1)
    (handleRleTermination s).1 skipPendingValue false (by omega) hg1 hrle1 hpwf
  have hres : skipOp s =
      ((appendPendingFuel false
          ((handleRleTermination s).1.pendingValues.length + 1)
          (handleRleTermination s).1 skipPendingValue).2.1,
        (handleRleTermination s).2 ++
        (appendPendingFuel false
          ((handleRleTermination s).1.pendingValues.length + 1)
          (handleRleTermination s).1 skipPendingValue).2.2) := rfl
  rw [hres]
  refine ⟨hg2, D1 ++ D2, ?_, ?_⟩
  · intro rest
    dsimp only
    rw [List.append_assoc, hthread1, hthread2, ← List.append_assoc]
  · dsimp only
    have hpv : pvOpt skipPendingValue = none := rfl
    rw [hvals1, List.append_assoc, ← hpv, hvals2, ← List.append_assoc]

theorem opInputs_toOps (xs : List (Option Nat)) : opInputs (toOps xs) = xs := by
  induction xs with
  | nil => rfl
  | cons x t ih =>
    cases x with
    | some v =>
      show some v :: opInputs (toOps t) = some v :: t
      rw [ih]
    | none =>
      show none :: opInputs (toOps t) = none :: t
      rw [ih]

theorem storable_of_mem_toOps (xs : List (Option Nat))
    (h : ∀ v, some v ∈ xs → Storable v) :
    ∀ v, Op.append v ∈ toOps xs ++ [Op.flush] → Storable v := by
  intro v hv
  rw [List.mem_append] at hv
  cases hv with
  | inl h1 =>
    unfold toOps at h1
    rw [List.mem_map] at h1
    obtain ⟨x, hx, hxe⟩ := h1
    cases x with
    | some w =>
      have hxe2 : Op.append w = Op.append v := hxe
      have hwv : w = v := Op.append.inj hxe2
      exact hwv ▸ h w hx
    | none =>
      have hxe2 : Op.skip = Op.append v := hxe
      exact absurd hxe2 (fun hc => Op.noConfusion hc)
  | inr h1 =>
    rw [List.mem_singleton] at h1
    exact absurd h1 (fun hc => Op.noConfusion hc)

theorem runOpsFrom_append_words :
    ∀ (l1 : List Op) (s : BuilderState) (l2 : List Op),
      (runOpsFrom s (l1 ++ l2)).2 =
        (runOpsFrom s l1).2 ++ (runOpsFrom (runOpsFrom s l1).1 l2).2 := by
  intro l1
  induction l1 with
  | nil => intro s l2; rfl
  | cons op t ih =>
    intro s l2
    have h1 : (runOpsFrom s ((op :: t) ++ l2)).2 =
        (runOp s op).2 ++ (runOpsFrom (runOp s op).1 (t ++ l2)).2 := rfl
    have h2 : (runOpsFrom s (op :: t)).2 =
        (runOp s op).2 ++ (runOpsFrom (runOp s op).1 t).2 := rfl
    have h3 : (runOpsFrom s (op :: t)).1 =
        (runOpsFrom (runOp s op).1 t).1 := rfl
    rw [h1, h2, h3, ih, List.append_assoc]

theorem initState_good : GOOD initState := by
  refine ⟨?_, ?_, ?_, ?_, ?_, ?_, ?_⟩
  · intro f hf
    refine ⟨?_, ?_, ?_, ?_, ?_⟩
    · intro pv hpv
      exact absurd hpv (List.not_mem_nil pv)
    · intro pv hpv
      exact absurd hpv (List.not_mem_nil pv)
    · rw [show initState.currTrailingZerosCount = (⟨0, 0, 0, 0⟩ : Quad Nat)
        from rfl, zero_quad_get]
      exact dvd_zero _
    · rw [show initState.currTrailingZerosCount = (⟨0, 0, 0, 0⟩ : Quad Nat)
        from rfl, zero_quad_get]
      exact Nat.zero_le _
    · exact Nat.le_refl _
  · intro pv hpv
    exact absurd hpv (List.not_mem_nil pv)
  · intro _
    exact ⟨rfl, rfl, rfl⟩
  · intro _
    rfl
  · intro hne
    exact absurd rfl hne
  · right
    show tooWideValue (makePendingValue 0) = false
    decide
  · intro h
    exact absurd h (Nat.lt_irrefl 0)

theorem runOpsFrom_sim :
    ∀ (ops : List Op) (s : BuilderState), GOOD s →
      (∀ v, Op.append v ∈ ops → Storable v) →
      GOOD (runOpsFrom s ops).1 ∧
      ∃ D, (∀ rest, decodeWordsFrom ((runOpsFrom s ops).2 ++ rest)
          (pvOpt s.lastValueInPrevWord) =
        D ++ decodeWordsFrom rest
          (pvOpt (runOpsFrom s ops).1.lastValueInPrevWord)) ∧
        stateVals s ++ opInputs ops = D ++ stateVals (runOpsFrom s ops).1 := by
  intro ops
  induction ops with
  | nil =>
    intro s hg _
    refine ⟨hg, [], fun rest => rfl, ?_⟩
    show stateVals s ++ opInputs [] = [] ++ stateVals s
    simp [opInputs]
  | cons op rest ih =>
    intro s hg hstor
    have hstep : GOOD (runOp s op).1 ∧
        ∃ D, (∀ r2, decodeWordsFrom ((runOp s op).2 ++ r2)
            (pvOpt s.lastValueInPrevWord) =
          D ++ decodeWordsFrom r2 (pvOpt (runOp s op).1.lastValueInPrevWord)) ∧
        stateVals s ++ opInputs [op] = D ++ stateVals (runOp s op).1 := by
      cases op with
      | append v =>
        have hv : Storable v := hstor v (by simp)
        obtain ⟨hok, hg1, D, hthread, hvals⟩ := appendOp_sim s v hg hv
        exact ⟨hg1, D, hthread, hvals⟩
      | skip =>
        obtain ⟨hg1, D, hthread, hvals⟩ := skipOp_sim s hg
        exact ⟨hg1, D, hthread, hvals⟩
      | flush =>
        obtain ⟨hg1, hsv1, hthread⟩ := flushOp_sim s hg
        refine ⟨hg1, stateVals s, hthread, ?_⟩
        show stateVals s ++ opInputs [Op.flush] =
          stateVals s ++ stateVals (flushOp s).1
        rw [hsv1]
        rfl
    obtain ⟨hg1, D1, hthread1, hvals1⟩ := hstep
    have hstor2 : ∀ v, Op.append v ∈ rest → Storable v := fun v hv =>
      hstor v (List.mem_cons_of_mem _ hv)
    obtain ⟨hg2, D2, hthread2, hvals2⟩ := ih (runOp s op).1 hg1 hstor2
    have hres : runOpsFrom s (op :: rest) =
        ((runOpsFrom (runOp s op).1 rest).1,
          (runOp s op).2 ++ (runOpsFrom (runOp s op).1 rest).2) := rfl
    rw [hres]
    dsimp only
    refine ⟨hg2, D1 ++ D2, ?_, ?_⟩
    · intro r2
      rw [List.append_assoc, hthread1, hthread2, ← List.append_assoc]
    · have hop : opInputs (op :: rest) = opInputs [op] ++ opInputs rest := by
        cases op <;> rfl
      rw [hop, ← List.append_assoc, hvals1, List.append_assoc, hvals2,
        ← List.append_assoc]

/-- C1: for every storable input sequence (present values the codec can
represent, plus missing values), feeding it to a fresh builder — `append`
per present value, `skip` per missing one, then `flush` — produces a word
stream that decodes back to exactly the input sequence. -/
theorem C1_round_trip (xs : List (Option Nat))
    (h : ∀ v, some v ∈ xs → Storable v) :
    decode (encode xs) = xs := by
  obtain ⟨hg1, D, hthread1, hvals1⟩ := runOpsFrom_sim (toOps xs) initState
    initState_good
    (fun v hv => storable_of_mem_toOps xs h v (List.mem_append_left _ hv))
  obtain ⟨hgf, hsvf, hthreadf⟩ :=
    flushOp_sim (runOpsFrom initState (toOps xs)).1 hg1
  have hw : encode xs =
      (runOpsFrom initState (toOps xs)).2 ++
        ((flushOp (runOpsFrom initState (toOps xs)).1).2 ++ []) := by
    show (runOpsFrom initState (toOps xs ++ [Op.flush])).2 =
      (runOpsFrom initState (toOps xs)).2 ++
        ((flushOp (runOpsFrom initState (toOps xs)).1).2 ++ [])
    rw [runOpsFrom_append_words]
    rfl
  have hsvi : stateVals initState = [] := rfl
  rw [hsvi, List.nil_append, opInputs_toOps] at hvals1
  show decodeWordsFrom (encode xs) (some 0) = xs
  rw [hw]
  have hinit : pvOpt initState.lastValueInPrevWord = some 0 := rfl
  rw [← hinit, hthread1, hthreadf, decodeWordsFrom_nil, List.append_nil,
    ← hvals1]

theorem C1_round_trip_witness :
    (∀ v, some v ∈ [some 7, none, some 300] → Storable v) ∧
    decode (encode [some 7, none, some 300]) = [some 7, none, some 300] := by
  have hst : ∀ v, some v ∈ [some 7, none, some 300] → Storable v := by
    intro v hv
    simp only [List.mem_cons, List.not_mem_nil, or_false] at hv
    cases hv with
    | inl h1 =>
      rw [Option.some.inj h1]
      show tooWideValue (makePendingValue 7) = false
      decide
    | inr h1 =>
      cases h1 with
      | inl h2 => exact Option.noConfusion h2
      | inr h2 =>
        rw [Option.some.inj h2]
        show tooWideValue (makePendingValue 300) = false
        decide
  exact ⟨hst, C1_round_trip [some 7, none, some 300] hst⟩

end Mongo
